import Mathlib

set_option linter.unusedSectionVars false

/-
Verification of the open-addressing hash table in hashtable.cpp.

The source file contains two near-identical template classes named HashMap:
  variant 1 stores values directly (vector of pairs plus a vector of
  "is_nullptr" flags), variant 2 stores nullable owning pointers.
Both use linear probing with lazy deletion (tombstones), growth by doubling
when the load factor would exceed 0.75, and shrinking by halving when
deleted-but-not-reclaimed slots outnumber twice the live count.

Modelling conventions:
  - std::vector becomes List; indexing "v[i]" becomes "List.getD i d" where
    d is the value-initialised default the C++ vector holds at fresh slots.
  - size_t counters become Nat.  The only subtraction in the source is the
    "--sz" in erase, which is executed just after an occupied slot was found,
    so it never underflows in any state the public operations can build.
  - "size_t(overload_size * buffer_size)" with overload_size = 0.75 is
    modelled as 3 * buffer_size / 4: the double product 0.75 * n is exact for
    every n below 2 to the 51, so its size_t truncation is floor(3n/4).
  - The rehash recursion (insert can call increase_size / decrease_size,
    whose rebuild loops call insert again) is modelled with an explicit fuel
    bounding the nesting depth of rebuilds; an exhausted fuel yields none.
    Every run appearing in a theorem below is shown (or computed) to be some.
  - Probe loops run "while (cond and i < buffer_size)"; they are modelled by
    structural recursion on the remaining iteration count.
-/

namespace Variant1

/-- State of one HashMap object of variant 1 (the value-storing class).
Fields mirror the private members of the class. -/
structure HashMap (K V : Type) where
  hasher : K → Nat
  sz : Nat
  buffer_size : Nat
  size_all_non_nullptr : Nat
  used : List Bool
  is_nullptr : List Bool
  arr : List (K × V)

/-- default_size from the source. -/
def default_size : Nat := 8

/-- decreasing_size from the source. -/
def decreasing_size : Nat := 2

/-- increasing_size from the source. -/
def increasing_size : Nat := 2

/-- allowed_deleted_elements from the source. -/
def allowed_deleted_elements : Nat := 2

/-- size_t(overload_size * buffer_size) with overload_size = 0.75. -/
def overload_limit (cap : Nat) : Nat := 3 * cap / 4

variable {K V : Type} [DecidableEq K] [Inhabited K] [Inhabited V]

/-- init(): the table right after construction or clear(). -/
def init (hasher : K → Nat) : HashMap K V where
  hasher := hasher
  sz := 0
  buffer_size := default_size
  size_all_non_nullptr := 0
  used := List.replicate default_size false
  is_nullptr := List.replicate default_size true
  arr := List.replicate default_size default

/-- The probe loop of find (and the textually identical loops of erase,
operator[] and at): fuel counts the remaining iterations (the loop guard
i < buffer_size), h is the current probe position.  Returns the slot index
holding the key, or none when an empty slot or the iteration cap stops the
walk. -/
def findLoop (m : HashMap K V) (key : K) : Nat → Nat → Option Nat
  | 0, _ => none
  | fuel + 1, h =>
    if m.is_nullptr.getD h true then none
    else if (m.arr.getD h default).1 = key ∧ m.used.getD h false = false then some h
    else findLoop m key fuel ((h + 1) % m.buffer_size)

/-- find(key), reduced to the slot index it stops at (none models end()). -/
def findSlot (m : HashMap K V) (key : K) : Option Nat :=
  findLoop m key m.buffer_size (m.hasher key % m.buffer_size)

/-- The value observed through the iterator that find(key) returns. -/
def findVal (m : HashMap K V) (key : K) : Option V :=
  (findSlot m key).map fun h => (m.arr.getD h default).2

/-- at(key): its probe loop is textually identical to find; a none models
the std::out_of_range (KeyNotFound) throw. -/
def at_ (m : HashMap K V) (key : K) : Option V :=
  (findLoop m key m.buffer_size (m.hasher key % m.buffer_size)).map
    fun h => (m.arr.getD h default).2

/-- Result of the probe loop inside insert: noop models the early return on
a matching occupied slot; fresh h models exiting with found == false (write
at position h); reuse h models the break at the first tombstone (write at
first_deleted = h). -/
inductive InsertProbe where
  | noop : InsertProbe
  | fresh (h : Nat) : InsertProbe
  | reuse (h : Nat) : InsertProbe

/-- The probe loop of insert in variant 1.  Note the break: the loop stops
at the first tombstone without looking further along the chain. -/
def insertLoop (m : HashMap K V) (key : K) : Nat → Nat → InsertProbe
  | 0, h => .fresh h
  | fuel + 1, h =>
    if m.is_nullptr.getD h true then .fresh h
    else if (m.arr.getD h default).1 = key ∧ m.used.getD h false = false then .noop
    else if m.used.getD h false then .reuse h
    else insertLoop m key fuel ((h + 1) % m.buffer_size)

/-- The write performed after the probe loop of insert (lines 244-254). -/
def placeProbe (m : HashMap K V) (item : K × V) : InsertProbe → HashMap K V
  | .noop => m
  | .fresh h =>
    { m with is_nullptr := m.is_nullptr.set h false
             arr := m.arr.set h item
             size_all_non_nullptr := m.size_all_non_nullptr + 1
             sz := m.sz + 1 }
  | .reuse h =>
    { m with is_nullptr := m.is_nullptr.set h false
             arr := m.arr.set h item
             used := m.used.set h false
             sz := m.sz + 1 }

/-- insert after the two capacity hooks have run: probe, then write. -/
def insertCore (m : HashMap K V) (item : K × V) : HashMap K V :=
  placeProbe m item (insertLoop m item.1 m.buffer_size (m.hasher item.1 % m.buffer_size))

/-- The fresh table a rehash rebuilds into (the state right after
increase_size or decrease_size resets the arrays, before reinsertion). -/
def rebuildInit (m : HashMap K V) (newcap : Nat) : HashMap K V :=
  { m with buffer_size := newcap
           sz := 0
           size_all_non_nullptr := 0
           used := List.replicate newcap false
           is_nullptr := List.replicate newcap true
           arr := List.replicate newcap default }

/-- The occupied entries of the table in slot order: exactly the pairs the
rebuild loops of increase_size and decrease_size reinsert. -/
def liveItems (m : HashMap K V) : List (K × V) :=
  (List.range m.buffer_size).filterMap fun i =>
    if m.is_nullptr.getD i true = false ∧ m.used.getD i false = false
    then some (m.arr.getD i default) else none

/-- insert(item) with the two hooks; fuel bounds rehash nesting.  At fuel 0
a hook that fires yields none (in every state reachable by the public
operations a small constant fuel suffices, see the theorems below). -/
def insertF : Nat → HashMap K V → K × V → Option (HashMap K V)
  | 0, m, item =>
    if m.sz + 1 > overload_limit m.buffer_size then none
    else if m.size_all_non_nullptr > allowed_deleted_elements * m.sz then none
    else some (insertCore m item)
  | fuel + 1, m, item =>
    match (if m.sz + 1 > overload_limit m.buffer_size then
             (liveItems m).foldlM (fun acc it => insertF fuel acc it)
               (rebuildInit m (m.buffer_size * increasing_size))
           else some m) with
    | none => none
    | some m1 =>
      match (if m1.size_all_non_nullptr > allowed_deleted_elements * m1.sz then
               (liveItems m1).foldlM (fun acc it => insertF fuel acc it)
                 (rebuildInit m1 (m1.buffer_size / decreasing_size))
             else some m1) with
      | none => none
      | some m2 => some (insertCore m2 item)

/-- increase_size(): double the capacity and reinsert every occupied entry. -/
def increase_size (fuel : Nat) (m : HashMap K V) : Option (HashMap K V) :=
  (liveItems m).foldlM (fun acc it => insertF fuel acc it)
    (rebuildInit m (m.buffer_size * increasing_size))

/-- decrease_size(): halve the capacity and reinsert every occupied entry.
There is no lower bound on the new capacity in the source. -/
def decrease_size (fuel : Nat) (m : HashMap K V) : Option (HashMap K V) :=
  (liveItems m).foldlM (fun acc it => insertF fuel acc it)
    (rebuildInit m (m.buffer_size / decreasing_size))

/-- erase(key): probe (loop textually identical to find), tombstone the
slot on a hit (used[h] = true, --sz), then run the shrink hook on the
mutated state; no-op on a miss. -/
def eraseF (fuel : Nat) (m : HashMap K V) (key : K) : Option (HashMap K V) :=
  match findSlot m key with
  | none => some m
  | some h =>
    if m.size_all_non_nullptr > allowed_deleted_elements * (m.sz - 1) then
      match fuel with
      | 0 => none
      | f + 1 => decrease_size f { m with used := m.used.set h true, sz := m.sz - 1 }
    else some { m with used := m.used.set h true, sz := m.sz - 1 }

/-- size(). -/
def size (m : HashMap K V) : Nat := m.sz

/-- empty(). -/
def empty (m : HashMap K V) : Bool := m.sz == 0

/-- clear(): reset to the initial table, keeping the hash function. -/
def clear (m : HashMap K V) : HashMap K V := init m.hasher

/-- operator[](key): probe first (loop textually identical to find); on a
miss insert a default value and return find(key)->second.  The final none
models the undefined dereference of end() (which no reachable state
triggers) or fuel exhaustion. -/
def index (fuel : Nat) (m : HashMap K V) (key : K) : Option (HashMap K V × V) :=
  match findSlot m key with
  | some h => some (m, (m.arr.getD h default).2)
  | none =>
    match insertF fuel m (key, default) with
    | none => none
    | some m' =>
      match findSlot m' key with
      | some h => some (m', (m'.arr.getD h default).2)
      | none => none

/-- The iterator advance go(): skip empty and tombstoned slots.  The first
argument is fuel equal to the remaining distance to the end of the array,
which is exactly how many steps the C++ while loop can still take. -/
def iterGoAux (m : HashMap K V) : Nat → Nat → Nat
  | 0, pos => pos
  | fuel + 1, pos =>
    if pos < m.arr.length ∧ (m.is_nullptr.getD pos true = true ∨ m.used.getD pos false = true)
    then iterGoAux m fuel (pos + 1)
    else pos

/-- go() from a given position. -/
def iterGo (m : HashMap K V) (pos : Nat) : Nat :=
  iterGoAux m (m.arr.length - pos) pos

/-- Walking an iterator from position pos to end() and collecting the
dereferenced pairs.  Each loop step emits one pair, so arr.length + 1 fuel
always suffices. -/
def enumAux (m : HashMap K V) : Nat → Nat → List (K × V)
  | 0, _ => []
  | fuel + 1, pos =>
    if iterGo m pos < m.arr.length
    then (m.arr.getD (iterGo m pos) default) :: enumAux m fuel (iterGo m pos + 1)
    else []

/-- The sequence produced by iterating from begin() to end(). -/
def toList (m : HashMap K V) : List (K × V) :=
  enumAux m (m.arr.length + 1) 0

/-- The copy constructor: a fresh table with the same hash function, filled
by inserting every pair the source iteration yields, in iteration order. -/
def copyCtor (fuel : Nat) (oth : HashMap K V) : Option (HashMap K V) :=
  (toList oth).foldlM (fun acc it => insertF fuel acc it) (init oth.hasher)

/-- operator=(oth).  sameObject models the address test &oth != this: when
the two references alias, the body is skipped entirely.  Otherwise the
hasher is copied, the table cleared, and every pair of oth reinserted. -/
def opAssign (fuel : Nat) (self oth : HashMap K V) (sameObject : Bool) :
    Option (HashMap K V) :=
  if sameObject then some self
  else (toList oth).foldlM (fun acc it => insertF fuel acc it) (init oth.hasher)

/-- One public operation, for building reachable states. -/
inductive Op (K V : Type) where
  | insert (k : K) (v : V) : Op K V
  | erase (k : K) : Op K V
  | clear : Op K V
  | index (k : K) : Op K V

/-- Rehash-nesting fuel used for every public operation.  The analysis in
the lemmas below shows a nesting depth of 3 is never exceeded from any
reachable state, so 16 is generous. -/
def opFuel : Nat := 16

/-- Apply one public operation. -/
def applyOp (m : HashMap K V) : Op K V → Option (HashMap K V)
  | .insert k v => insertF opFuel m (k, v)
  | .erase k => eraseF opFuel m k
  | .clear => some (clear m)
  | .index k => (index opFuel m k).map Prod.fst

/-- Run a sequence of public operations on a freshly constructed table. -/
def runOps (hasher : K → Nat) (ops : List (Op K V)) : Option (HashMap K V) :=
  ops.foldlM applyOp (init hasher)

/-- size() observed after a run. -/
def runSize (hasher : K → Nat) (ops : List (Op K V)) : Option Nat :=
  (runOps hasher ops).map size

/-- buffer_size observed after a run. -/
def runCap (hasher : K → Nat) (ops : List (Op K V)) : Option Nat :=
  (runOps hasher ops).map HashMap.buffer_size

/-- find(key) observed after a run. -/
def runFind (hasher : K → Nat) (ops : List (Op K V)) (key : K) : Option (Option V) :=
  (runOps hasher ops).map fun m => findVal m key

end Variant1

namespace Variant2

/-- State of one HashMap object of variant 2 (the pointer-storing class):
arr holds nullable owning pointers, modelled as Option; there is no
separate is_nullptr vector. -/
structure HashMap (K V : Type) where
  hasher : K → Nat
  sz : Nat
  buffer_size : Nat
  size_all_non_nullptr : Nat
  used : List Bool
  arr : List (Option (K × V))

/-- default_size from the source (variant 2). -/
def default_size : Nat := 8

/-- decreasing_size from the source (variant 2); it is used both as the
shrink divisor and as the tombstone threshold factor. -/
def decreasing_size : Nat := 2

/-- size_t(overload_size * buffer_size) with overload_size = 0.75. -/
def overload_limit (cap : Nat) : Nat := 3 * cap / 4

variable {K V : Type} [DecidableEq K] [Inhabited K] [Inhabited V]

/-- init() of variant 2. -/
def init (hasher : K → Nat) : HashMap K V where
  hasher := hasher
  sz := 0
  buffer_size := default_size
  size_all_non_nullptr := 0
  used := List.replicate default_size false
  arr := List.replicate default_size none

/-- The probe loop of find / erase / operator[] / at in variant 2. -/
def findLoop (m : HashMap K V) (key : K) : Nat → Nat → Option Nat
  | 0, _ => none
  | fuel + 1, h =>
    match m.arr.getD h none with
    | none => none
    | some p =>
      if p.1 = key ∧ m.used.getD h false = false then some h
      else findLoop m key fuel ((h + 1) % m.buffer_size)

/-- find(key) of variant 2, as the slot index it stops at. -/
def findSlot (m : HashMap K V) (key : K) : Option Nat :=
  findLoop m key m.buffer_size (m.hasher key % m.buffer_size)

/-- The value observed through the iterator that find(key) returns. -/
def findVal (m : HashMap K V) (key : K) : Option V :=
  (findSlot m key).map fun h => ((m.arr.getD h none).getD default).2

/-- The probe loop of insert in variant 2: unlike variant 1 it has no
break, it records the first tombstone in first_deleted (fd here) and keeps
walking, so a matching occupied slot later in the chain still causes the
no-op return. -/
def insertLoop (m : HashMap K V) (key : K) : Nat → Nat → Option Nat → Variant1.InsertProbe
  | 0, h, fd =>
    match fd with
    | some d => .reuse d
    | none => .fresh h
  | fuel + 1, h, fd =>
    match m.arr.getD h none with
    | none =>
      match fd with
      | some d => .reuse d
      | none => .fresh h
    | some p =>
      if p.1 = key ∧ m.used.getD h false = false then .noop
      else
        insertLoop m key fuel ((h + 1) % m.buffer_size)
          (if m.used.getD h false = true ∧ fd = none then some h else fd)

/-- The write performed after the probe loop of insert (variant 2). -/
def placeProbe (m : HashMap K V) (item : K × V) : Variant1.InsertProbe → HashMap K V
  | .noop => m
  | .fresh h =>
    { m with arr := m.arr.set h (some item)
             size_all_non_nullptr := m.size_all_non_nullptr + 1
             sz := m.sz + 1 }
  | .reuse h =>
    { m with arr := m.arr.set h (some item)
             used := m.used.set h false
             sz := m.sz + 1 }

/-- insert after the two capacity checks have run: probe, then write. -/
def insertCore (m : HashMap K V) (item : K × V) : HashMap K V :=
  placeProbe m item
    (insertLoop m item.1 m.buffer_size (m.hasher item.1 % m.buffer_size) none)

/-- The fresh table a rehash of variant 2 rebuilds into. -/
def rebuildInit (m : HashMap K V) (newcap : Nat) : HashMap K V :=
  { m with buffer_size := newcap
           sz := 0
           size_all_non_nullptr := 0
           used := List.replicate newcap false
           arr := List.replicate newcap none }

/-- The occupied entries in slot order, as reinserted by double_size and
half_size. -/
def liveItems (m : HashMap K V) : List (K × V) :=
  (List.range m.buffer_size).filterMap fun i =>
    match m.arr.getD i none with
    | none => none
    | some p => if m.used.getD i false = false then some p else none

/-- insert(item) of variant 2, with its two inline capacity checks
(double_size then half_size) and fuel bounding rehash nesting. -/
def insertF : Nat → HashMap K V → K × V → Option (HashMap K V)
  | 0, m, item =>
    if m.sz + 1 > overload_limit m.buffer_size then none
    else if m.size_all_non_nullptr > decreasing_size * m.sz then none
    else some (insertCore m item)
  | fuel + 1, m, item =>
    match (if m.sz + 1 > overload_limit m.buffer_size then
             (liveItems m).foldlM (fun acc it => insertF fuel acc it)
               (rebuildInit m (m.buffer_size * 2))
           else some m) with
    | none => none
    | some m1 =>
      match (if m1.size_all_non_nullptr > decreasing_size * m1.sz then
               (liveItems m1).foldlM (fun acc it => insertF fuel acc it)
                 (rebuildInit m1 (m1.buffer_size / 2))
             else some m1) with
      | none => none
      | some m2 => some (insertCore m2 item)

/-- half_size() of variant 2. -/
def half_size (fuel : Nat) (m : HashMap K V) : Option (HashMap K V) :=
  (liveItems m).foldlM (fun acc it => insertF fuel acc it)
    (rebuildInit m (m.buffer_size / 2))

/-- erase(key) of variant 2. -/
def eraseF (fuel : Nat) (m : HashMap K V) (key : K) : Option (HashMap K V) :=
  match findSlot m key with
  | none => some m
  | some h =>
    if m.size_all_non_nullptr > decreasing_size * (m.sz - 1) then
      match fuel with
      | 0 => none
      | f + 1 => half_size f { m with used := m.used.set h true, sz := m.sz - 1 }
    else some { m with used := m.used.set h true, sz := m.sz - 1 }

/-- size() of variant 2. -/
def size (m : HashMap K V) : Nat := m.sz

/-- A public operation of variant 2 (the subset needed for comparison). -/
inductive Op (K V : Type) where
  | insert (k : K) (v : V) : Op K V
  | erase (k : K) : Op K V

/-- Fuel used for every public operation of variant 2. -/
def opFuel : Nat := 16

/-- Apply one public operation of variant 2. -/
def applyOp (m : HashMap K V) : Op K V → Option (HashMap K V)
  | .insert k v => insertF opFuel m (k, v)
  | .erase k => eraseF opFuel m k

/-- Run a sequence of public operations on a fresh variant 2 table. -/
def runOps (hasher : K → Nat) (ops : List (Op K V)) : Option (HashMap K V) :=
  ops.foldlM applyOp (init hasher)

end Variant2

namespace Variant1

section SlotModel

variable {K V : Type} [DecidableEq K] [Inhabited K] [Inhabited V]

/-- Slot i is empty (never used, or reset by a rebuild). -/
def slotNull (m : HashMap K V) (i : Nat) : Prop := m.is_nullptr.getD i true = true

/-- Slot i holds a live entry. -/
def slotOcc (m : HashMap K V) (i : Nat) : Prop :=
  m.is_nullptr.getD i true = false ∧ m.used.getD i false = false

/-- Slot i is a tombstone. -/
def slotTomb (m : HashMap K V) (i : Nat) : Prop :=
  m.is_nullptr.getD i true = false ∧ m.used.getD i false = true

/-- Key stored at slot i. -/
def keyAt (m : HashMap K V) (i : Nat) : K := (m.arr.getD i default).1

instance (m : HashMap K V) (i : Nat) : Decidable (slotNull m i) := by
  unfold slotNull; infer_instance

instance (m : HashMap K V) (i : Nat) : Decidable (slotOcc m i) := by
  unfold slotOcc; infer_instance

instance (m : HashMap K V) (i : Nat) : Decidable (slotTomb m i) := by
  unfold slotTomb; infer_instance

/-- Number of live slots of the table. -/
def occCount (m : HashMap K V) : Nat :=
  ∑ i ∈ Finset.range m.buffer_size, if slotOcc m i then 1 else 0

/-- Number of non-null slots (live entries plus tombstones). -/
def nnCount (m : HashMap K V) : Nat :=
  ∑ i ∈ Finset.range m.buffer_size, if ¬ slotNull m i then 1 else 0

/-- The well-formedness invariant tying the counter fields of a variant 1
table to its slot arrays.  Every state reachable by the public operations
satisfies it; note there is no lower bound 8 on the capacity, only
positivity (via the power of two shape). -/
structure Wf (m : HashMap K V) : Prop where
  len_used : m.used.length = m.buffer_size
  len_null : m.is_nullptr.length = m.buffer_size
  len_arr : m.arr.length = m.buffer_size
  pow : ∃ k, m.buffer_size = 2 ^ k
  sz_eq : m.sz = occCount m
  nn_eq : m.size_all_non_nullptr = nnCount m
  nn_le : m.size_all_non_nullptr ≤ 2 * m.sz
  sz_le : m.sz ≤ overload_limit m.buffer_size
  null_used : ∀ i, slotNull m i → m.used.getD i false = false

/-- No tombstone anywhere: the table has never erased, or was just rebuilt. -/
def tombFree (m : HashMap K V) : Prop := ∀ i, m.used.getD i false = false

/-- Probe chain invariant: every live slot is reachable from the home
bucket of its key through a prefix of live slots holding other keys. -/
def chainInv (m : HashMap K V) : Prop :=
  ∀ j < m.buffer_size, slotOcc m j →
    ∃ t < m.buffer_size,
      j = (m.hasher (keyAt m j) % m.buffer_size + t) % m.buffer_size ∧
      ∀ s < t,
        slotOcc m ((m.hasher (keyAt m j) % m.buffer_size + s) % m.buffer_size) ∧
        keyAt m ((m.hasher (keyAt m j) % m.buffer_size + s) % m.buffer_size)
          ≠ keyAt m j

/-- States of the erase-free fragment: well formed, tombstone free, chains
intact. -/
def Good (m : HashMap K V) : Prop := Wf m ∧ tombFree m ∧ chainInv m

/-- The key k occupies no slot of m. -/
def noOcc (m : HashMap K V) (k : K) : Prop :=
  ∀ j < m.buffer_size, slotOcc m j → keyAt m j ≠ k

/-- The pair (k, v) sits in some live slot of m. -/
def hasPair (m : HashMap K V) (k : K) (v : V) : Prop :=
  ∃ j < m.buffer_size, slotOcc m j ∧ m.arr.getD j default = (k, v)

end SlotModel

end Variant1

/-- The failing run for the variant 1 insert defect: keys 0 and 8 share the
bucket 0 under the identity hash on capacity 8; erase(0) leaves a tombstone
at slot 0 on the probe chain of key 8, which stays live at slot 1. -/
def bugOps : List (Variant1.Op Nat Nat) :=
  [Variant1.Op.insert 0 10, Variant1.Op.insert 8 11, Variant1.Op.erase 0,
    Variant1.Op.insert 8 12]

/-- The same operation sequence for the variant 2 class. -/
def bugOps2 : List (Variant2.Op Nat Nat) :=
  [Variant2.Op.insert 0 10, Variant2.Op.insert 8 11, Variant2.Op.erase 0,
    Variant2.Op.insert 8 12]

/-- bugOps extended so that the table holds 6 entries and the next insert
triggers the growth rebuild. -/
def c6ops : List (Variant1.Op Nat Nat) :=
  bugOps ++ [Variant1.Op.insert 2 20, Variant1.Op.insert 3 30,
    Variant1.Op.insert 4 40, Variant1.Op.insert 5 50]

/-- Pairs for the C4 witness: seven distinct keys, enough to trigger the
capacity doubling from 8 to 16 at the seventh insert. -/
def c4pairs : List (Nat × Nat) := [(0, 1), (1, 2), (2, 3), (3, 4), (4, 5), (5, 6), (6, 7)]

namespace Variant1

section Invariant

variable {K V : Type} [DecidableEq K] [Inhabited K] [Inhabited V]

theorem insertF_succ (fuel : Nat) (m : HashMap K V) (item : K × V) :
    insertF (fuel + 1) m item =
      match (if m.sz + 1 > overload_limit m.buffer_size then increase_size fuel m
             else some m) with
      | none => none
      | some m1 =>
        match (if m1.size_all_non_nullptr > allowed_deleted_elements * m1.sz then
                 decrease_size fuel m1
               else some m1) with
        | none => none
        | some m2 => some (insertCore m2 item) := rfl

theorem insertLoop_succ (m : HashMap K V) (key : K) (fuel h : Nat) :
    insertLoop m key (fuel + 1) h =
      if m.is_nullptr.getD h true then .fresh h
      else if (m.arr.getD h default).1 = key ∧ m.used.getD h false = false then .noop
      else if m.used.getD h false then .reuse h
      else insertLoop m key fuel ((h + 1) % m.buffer_size) := rfl

theorem getD_set_self {α : Type} (l : List α) (i : Nat) (a d : α) (h : i < l.length) :
    (l.set i a).getD i d = a := by
  rw [List.getD_eq_getElem?_getD, List.getElem?_set_self h]; rfl

theorem getD_set_ne {α : Type} (l : List α) {i j : Nat} (a d : α) (h : i ≠ j) :
    (l.set i a).getD j d = l.getD j d := by
  rw [List.getD_eq_getElem?_getD, List.getElem?_set_ne h, ← List.getD_eq_getElem?_getD]

theorem getD_of_le {α : Type} (l : List α) {i : Nat} (d : α) (h : l.length ≤ i) :
    l.getD i d = d := by
  rw [List.getD_eq_getElem?_getD, List.getElem?_eq_none h]; rfl

theorem getD_replicate {α : Type} {n i : Nat} (a d : α) (h : i < n) :
    (List.replicate n a).getD i d = a := by
  rw [List.getD_eq_getElem?_getD, List.getElem?_replicate, if_pos h]; rfl

theorem Wf.cap_pos {m : HashMap K V} (h : Wf m) : 0 < m.buffer_size := by
  obtain ⟨k, hk⟩ := h.pow
  rw [hk]
  exact Nat.one_le_two_pow

theorem sum_ite_congr_pred {s : Finset Nat} {p q : Nat → Prop}
    [DecidablePred p] [DecidablePred q] (h : ∀ i ∈ s, p i ↔ q i) :
    (∑ i ∈ s, if p i then 1 else 0) = ∑ i ∈ s, if q i then 1 else 0 :=
  Finset.sum_congr rfl fun i hi => by
    by_cases hp : p i
    · rw [if_pos hp, if_pos ((h i hi).mp hp)]
    · rw [if_neg hp, if_neg fun hq => hp ((h i hi).mpr hq)]

theorem sum_ite_flip_up {s : Finset Nat} {p q : Nat → Prop}
    [DecidablePred p] [DecidablePred q] {j : Nat} (hj : j ∈ s)
    (hpj : ¬ p j) (hqj : q j) (hother : ∀ i ∈ s, i ≠ j → (p i ↔ q i)) :
    (∑ i ∈ s, if q i then 1 else 0) = (∑ i ∈ s, if p i then 1 else 0) + 1 := by
  rw [← Finset.add_sum_erase s (fun i => if q i then 1 else 0) hj,
      ← Finset.add_sum_erase s (fun i => if p i then 1 else 0) hj,
      if_pos hqj, if_neg hpj]
  have heq : (∑ i ∈ s.erase j, if q i then 1 else 0)
      = ∑ i ∈ s.erase j, if p i then 1 else 0 :=
    sum_ite_congr_pred fun i hi =>
      (hother i (Finset.mem_of_mem_erase hi) (Finset.ne_of_mem_erase hi)).symm
  omega

theorem sum_ite_flip_down {s : Finset Nat} {p q : Nat → Prop}
    [DecidablePred p] [DecidablePred q] {j : Nat} (hj : j ∈ s)
    (hpj : p j) (hqj : ¬ q j) (hother : ∀ i ∈ s, i ≠ j → (p i ↔ q i)) :
    (∑ i ∈ s, if p i then 1 else 0) = (∑ i ∈ s, if q i then 1 else 0) + 1 :=
  sum_ite_flip_up hj hqj hpj fun i hi hij => (hother i hi hij).symm

theorem length_filterMap_ite {α : Type} (g : Nat → α) (p : Nat → Prop) [DecidablePred p] :
    ∀ n, ((List.range n).filterMap fun i => if p i then some (g i) else none).length
      = ∑ i ∈ Finset.range n, if p i then 1 else 0
  | 0 => rfl
  | n + 1 => by
    rw [List.range_succ, List.filterMap_append, Finset.sum_range_succ, List.length_append,
        length_filterMap_ite g p n]
    by_cases hp : p n
    · simp [hp]
    · simp [hp]

theorem liveItems_length (m : HashMap K V) : (liveItems m).length = occCount m := by
  unfold liveItems occCount
  rw [length_filterMap_ite (fun i => m.arr.getD i default)
    (fun i => m.is_nullptr.getD i true = false ∧ m.used.getD i false = false)]
  exact sum_ite_congr_pred fun i _ => Iff.rfl

theorem probe_step (cap h s : Nat) : ((h + 1) % cap + s) % cap = (h + (s + 1)) % cap := by
  rw [Nat.mod_add_mod]
  congr 1
  omega

theorem chain_covers {cap h0 : Nat} (hh : h0 < cap) {j : Nat} (hj : j < cap) :
    ∃ s < cap, (h0 + s) % cap = j := by
  refine ⟨(cap + j - h0) % cap, Nat.mod_lt _ (by omega), ?_⟩
  have h1 : (h0 + (cap + j - h0) % cap) % cap = (h0 + (cap + j - h0)) % cap :=
    Nat.ModEq.add_left h0 (Nat.mod_modEq _ _)
  rw [h1]
  have h2 : h0 + (cap + j - h0) = cap + j := by omega
  rw [h2, Nat.add_mod_left, Nat.mod_eq_of_lt hj]

theorem occCount_full (m : HashMap K V) {h0 : Nat} (hh : h0 < m.buffer_size)
    (hall : ∀ s < m.buffer_size, slotOcc m ((h0 + s) % m.buffer_size)) :
    occCount m = m.buffer_size := by
  unfold occCount
  have hone : ∀ j ∈ Finset.range m.buffer_size, (if slotOcc m j then 1 else 0) = 1 := by
    intro j hj
    obtain ⟨s, hs, hsj⟩ := chain_covers hh (Finset.mem_range.mp hj)
    rw [if_pos (hsj ▸ hall s hs)]
  rw [Finset.sum_congr rfl hone, Finset.sum_const, Finset.card_range, smul_eq_mul, mul_one]

theorem findLoop_some (m : HashMap K V) (key : K) :
    ∀ fuel h j, h < m.buffer_size → findLoop m key fuel h = some j →
      j < m.buffer_size ∧ slotOcc m j ∧ keyAt m j = key
  | 0, h, j, _, heq => by simp [findLoop] at heq
  | fuel + 1, h, j, hh, heq => by
    unfold findLoop at heq
    split at heq
    · exact absurd heq (by simp)
    · split at heq
      · rename_i hnull hmatch
        cases heq
        refine ⟨hh, ⟨?_, hmatch.2⟩, hmatch.1⟩
        cases hb : m.is_nullptr.getD h true
        · rfl
        · exact absurd hb hnull
      · exact findLoop_some m key fuel _ j (Nat.mod_lt _ (by omega)) heq

theorem findSlot_some (m : HashMap K V) (key : K) {j : Nat} (hpos : 0 < m.buffer_size)
    (heq : findSlot m key = some j) :
    j < m.buffer_size ∧ slotOcc m j ∧ keyAt m j = key :=
  findLoop_some m key m.buffer_size _ j (Nat.mod_lt _ hpos) heq

/-- Characterisation of one insert probe: the loop walked some number t of
occupied, non-matching slots starting at h and then stopped as the probe
result describes (early return on a match, fresh write on an empty slot,
reuse write on the first tombstone, or fresh write at the current position
when the iteration counter reached buffer_size). -/
theorem insertLoop_spec (m : HashMap K V) (key : K) :
    ∀ (fuel h : Nat), h < m.buffer_size →
      ∃ t ≤ fuel,
        (∀ s < t, slotOcc m ((h + s) % m.buffer_size) ∧
          keyAt m ((h + s) % m.buffer_size) ≠ key) ∧
        ((insertLoop m key fuel h = .noop ∧
            slotOcc m ((h + t) % m.buffer_size) ∧
            keyAt m ((h + t) % m.buffer_size) = key) ∨
         (insertLoop m key fuel h = .fresh ((h + t) % m.buffer_size) ∧
            slotNull m ((h + t) % m.buffer_size)) ∨
         (insertLoop m key fuel h = .reuse ((h + t) % m.buffer_size) ∧
            slotTomb m ((h + t) % m.buffer_size)) ∨
         (insertLoop m key fuel h = .fresh ((h + t) % m.buffer_size) ∧ t = fuel)) := by
  intro fuel
  induction fuel with
  | zero =>
    intro h hh
    refine ⟨0, Nat.le_refl 0, fun s hs => absurd hs (by omega),
      Or.inr (Or.inr (Or.inr ⟨?_, rfl⟩))⟩
    rw [Nat.add_zero, Nat.mod_eq_of_lt hh]
    rfl
  | succ fuel ih =>
    intro h hh
    have hzero : (h + 0) % m.buffer_size = h := by
      rw [Nat.add_zero, Nat.mod_eq_of_lt hh]
    by_cases hnull : m.is_nullptr.getD h true = true
    · refine ⟨0, by omega, fun s hs => absurd hs (by omega), Or.inr (Or.inl ⟨?_, ?_⟩)⟩
      · rw [hzero, insertLoop_succ, if_pos hnull]
      · rw [hzero]
        exact hnull
    · have hnull' : m.is_nullptr.getD h true = false := by
        cases hb : m.is_nullptr.getD h true
        · rfl
        · exact absurd hb hnull
      by_cases hmatch : (m.arr.getD h default).1 = key ∧ m.used.getD h false = false
      · refine ⟨0, by omega, fun s hs => absurd hs (by omega), Or.inl ⟨?_, ?_, ?_⟩⟩
        · rw [insertLoop_succ, if_neg (by rw [hnull']; exact Bool.false_ne_true),
            if_pos hmatch]
        · rw [hzero]
          exact ⟨hnull', hmatch.2⟩
        · rw [hzero]
          exact hmatch.1
      · by_cases hused : m.used.getD h false = true
        · refine ⟨0, by omega, fun s hs => absurd hs (by omega),
            Or.inr (Or.inr (Or.inl ⟨?_, ?_⟩))⟩
          · rw [hzero, insertLoop_succ, if_neg (by rw [hnull']; exact Bool.false_ne_true),
              if_neg hmatch, if_pos hused]
          · rw [hzero]
            exact ⟨hnull', hused⟩
        · have hused' : m.used.getD h false = false := by
            cases hb : m.used.getD h false
            · rfl
            · exact absurd hb hused
          have hstep : insertLoop m key (fuel + 1) h
              = insertLoop m key fuel ((h + 1) % m.buffer_size) := by
            rw [insertLoop_succ, if_neg (by rw [hnull']; exact Bool.false_ne_true),
              if_neg hmatch, if_neg (by rw [hused']; exact Bool.false_ne_true)]
          obtain ⟨t, ht, hpre, hres⟩ := ih ((h + 1) % m.buffer_size) (Nat.mod_lt _ (by omega))
          rw [probe_step] at hres
          refine ⟨t + 1, by omega, ?_, ?_⟩
          · intro s hs
            match s with
            | 0 =>
              rw [hzero]
              exact ⟨⟨hnull', hused'⟩, fun hk => hmatch ⟨hk, hused'⟩⟩
            | s + 1 =>
              have hp := hpre s (by omega)
              rwa [probe_step] at hp
          · rw [hstep]
            rcases hres with ⟨h1, h2, h3⟩ | ⟨h1, h2⟩ | ⟨h1, h2⟩ | ⟨h1, h2⟩
            · exact Or.inl ⟨h1, h2, h3⟩
            · exact Or.inr (Or.inl ⟨h1, h2⟩)
            · exact Or.inr (Or.inr (Or.inl ⟨h1, h2⟩))
            · exact Or.inr (Or.inr (Or.inr ⟨h1, by omega⟩))

theorem slotNull_iff_of_getD_eq {m m' : HashMap K V} (i : Nat)
    (h1 : m'.is_nullptr.getD i true = m.is_nullptr.getD i true) :
    slotNull m' i ↔ slotNull m i := by
  unfold slotNull
  rw [h1]

theorem slotOcc_iff_of_getD_eq {m m' : HashMap K V} (i : Nat)
    (h1 : m'.is_nullptr.getD i true = m.is_nullptr.getD i true)
    (h2 : m'.used.getD i false = m.used.getD i false) :
    slotOcc m' i ↔ slotOcc m i := by
  unfold slotOcc
  rw [h1, h2]

/-- The write phase of insert preserves well-formedness, keeps the capacity,
and grows sz by at most one, provided the pre-probe state respects the load
factor bound the growth hook establishes. -/
theorem insertCore_Wf (m : HashMap K V) (item : K × V) (hwf : Wf m)
    (hcap : m.sz + 1 ≤ overload_limit m.buffer_size) :
    Wf (insertCore m item) ∧ (insertCore m item).buffer_size = m.buffer_size ∧
      m.sz ≤ (insertCore m item).sz ∧ (insertCore m item).sz ≤ m.sz + 1 := by
  have hpos : 0 < m.buffer_size := hwf.cap_pos
  have hlim : overload_limit m.buffer_size < m.buffer_size := by
    unfold overload_limit
    omega
  have hh0 : m.hasher item.1 % m.buffer_size < m.buffer_size := Nat.mod_lt _ hpos
  obtain ⟨t, ht, hpre, hres⟩ := insertLoop_spec m item.1 m.buffer_size _ hh0
  unfold insertCore
  rcases hres with ⟨heq, -, -⟩ | ⟨heq, hnull⟩ | ⟨heq, htomb⟩ | ⟨heq, htf⟩
  · rw [heq]
    exact ⟨hwf, rfl, Nat.le_refl _, Nat.le_succ _⟩
  · -- the loop stopped at an empty slot j: a fresh write
    rw [heq]
    have hjlt : (m.hasher item.1 % m.buffer_size + t) % m.buffer_size < m.buffer_size :=
      Nat.mod_lt _ hpos
    set j := (m.hasher item.1 % m.buffer_size + t) % m.buffer_size with hj
    set m' : HashMap K V := placeProbe m item (.fresh j) with hm'
    have hfcap : m'.buffer_size = m.buffer_size := rfl
    have hfused : m'.used = m.used := rfl
    have hfnull : m'.is_nullptr = m.is_nullptr.set j false := rfl
    have hfsz : m'.sz = m.sz + 1 := rfl
    have hfnn : m'.size_all_non_nullptr = m.size_all_non_nullptr + 1 := rfl
    have hjlen : j < m.is_nullptr.length := by
      rw [hwf.len_null]
      exact hjlt
    have husedj : m.used.getD j false = false := hwf.null_used j hnull
    have hnullj' : m'.is_nullptr.getD j true = false := by
      rw [hfnull]
      exact getD_set_self _ j false true hjlen
    have hoth : ∀ i, i ≠ j →
        (m'.is_nullptr.getD i true = m.is_nullptr.getD i true ∧
         m'.used.getD i false = m.used.getD i false) := by
      intro i hij
      exact ⟨by rw [hfnull]; exact getD_set_ne _ _ _ (fun hc => hij hc.symm), by rw [hfused]⟩
    have hocc : occCount m' = occCount m + 1 := by
      unfold occCount
      rw [hfcap]
      refine sum_ite_flip_up (Finset.mem_range.mpr hjlt) ?_ ?_ ?_
      · intro hc
        have h1 := hc.1
        rw [hnull] at h1
        exact absurd h1 (by simp)
      · exact ⟨hnullj', by rw [hfused]; exact husedj⟩
      · intro i _ hij
        exact (slotOcc_iff_of_getD_eq i (hoth i hij).1 (hoth i hij).2).symm
    have hnn : nnCount m' = nnCount m + 1 := by
      unfold nnCount
      rw [hfcap]
      refine sum_ite_flip_up (Finset.mem_range.mpr hjlt) ?_ ?_ ?_
      · intro hc
        exact hc hnull
      · intro hc
        have h1 : m'.is_nullptr.getD j true = true := hc
        rw [hnullj'] at h1
        exact absurd h1 (by simp)
      · intro i _ hij
        exact not_congr (slotNull_iff_of_getD_eq i (hoth i hij).1).symm
    refine ⟨?_, rfl, Nat.le_succ _, Nat.le_refl _⟩
    constructor
    · rw [hfused, hfcap]
      exact hwf.len_used
    · rw [hfnull, hfcap, List.length_set]
      exact hwf.len_null
    · show (m.arr.set j item).length = m'.buffer_size
      rw [hfcap, List.length_set]
      exact hwf.len_arr
    · rw [hfcap]
      exact hwf.pow
    · rw [hfsz, hocc, hwf.sz_eq]
    · rw [hfnn, hnn, hwf.nn_eq]
    · rw [hfnn, hfsz]
      have := hwf.nn_le
      omega
    · rw [hfsz, hfcap]
      exact hcap
    · intro i hsn
      by_cases hij : i = j
      · subst hij
        have h1 : m'.is_nullptr.getD j true = true := hsn
        rw [hnullj'] at h1
        exact absurd h1 (by simp)
      · rw [hfused]
        have hs := (slotNull_iff_of_getD_eq i (hoth i hij).1).mp hsn
        exact hwf.null_used i hs
  · -- the loop broke at the first tombstone j: the slot is reused
    rw [heq]
    have hjlt : (m.hasher item.1 % m.buffer_size + t) % m.buffer_size < m.buffer_size :=
      Nat.mod_lt _ hpos
    set j := (m.hasher item.1 % m.buffer_size + t) % m.buffer_size with hj
    set m' : HashMap K V := placeProbe m item (.reuse j) with hm'
    have hfcap : m'.buffer_size = m.buffer_size := rfl
    have hfused : m'.used = m.used.set j false := rfl
    have hfnull : m'.is_nullptr = m.is_nullptr.set j false := rfl
    have hfsz : m'.sz = m.sz + 1 := rfl
    have hfnn : m'.size_all_non_nullptr = m.size_all_non_nullptr := rfl
    have hjlen : j < m.is_nullptr.length := by
      rw [hwf.len_null]
      exact hjlt
    have hjlenu : j < m.used.length := by
      rw [hwf.len_used]
      exact hjlt
    have hnullj' : m'.is_nullptr.getD j true = false := by
      rw [hfnull]
      exact getD_set_self _ j false true hjlen
    have husedj' : m'.used.getD j false = false := by
      rw [hfused]
      exact getD_set_self _ j false false hjlenu
    have hoth : ∀ i, i ≠ j →
        (m'.is_nullptr.getD i true = m.is_nullptr.getD i true ∧
         m'.used.getD i false = m.used.getD i false) := by
      intro i hij
      refine ⟨by rw [hfnull]; exact getD_set_ne _ _ _ (fun hc => hij hc.symm),
        by rw [hfused]; exact getD_set_ne _ _ _ (fun hc => hij hc.symm)⟩
    have hnulliff : ∀ i, slotNull m' i ↔ slotNull m i := by
      intro i
      by_cases hij : i = j
      · subst hij
        unfold slotNull
        rw [hnullj', htomb.1]
      · exact slotNull_iff_of_getD_eq i (hoth i hij).1
    have hocc : occCount m' = occCount m + 1 := by
      unfold occCount
      rw [hfcap]
      refine sum_ite_flip_up (Finset.mem_range.mpr hjlt) ?_ ?_ ?_
      · intro hc
        have h1 := hc.2
        rw [htomb.2] at h1
        exact absurd h1 (by simp)
      · exact ⟨hnullj', husedj'⟩
      · intro i _ hij
        exact (slotOcc_iff_of_getD_eq i (hoth i hij).1 (hoth i hij).2).symm
    have hnn : nnCount m' = nnCount m := by
      unfold nnCount
      rw [hfcap]
      exact sum_ite_congr_pred fun i _ => not_congr (hnulliff i)
    refine ⟨?_, rfl, Nat.le_succ _, Nat.le_refl _⟩
    constructor
    · rw [hfused, hfcap, List.length_set]
      exact hwf.len_used
    · rw [hfnull, hfcap, List.length_set]
      exact hwf.len_null
    · show (m.arr.set j item).length = m'.buffer_size
      rw [hfcap, List.length_set]
      exact hwf.len_arr
    · rw [hfcap]
      exact hwf.pow
    · rw [hfsz, hocc, hwf.sz_eq]
    · rw [hfnn, hnn, hwf.nn_eq]
    · rw [hfnn, hfsz]
      have := hwf.nn_le
      omega
    · rw [hfsz, hfcap]
      exact hcap
    · intro i hsn
      by_cases hij : i = j
      · subst hij
        have h1 : m'.is_nullptr.getD j true = true := hsn
        rw [hnullj'] at h1
        exact absurd h1 (by simp)
      · rw [(hoth i hij).2]
        exact hwf.null_used i ((hnulliff i).mp hsn)
  · -- the iteration counter reached buffer_size: impossible under the
    -- load factor bound, every slot would have to be occupied
    exfalso
    subst htf
    have hall : ∀ s < m.buffer_size, slotOcc m ((m.hasher item.1 % m.buffer_size + s)
        % m.buffer_size) := fun s hs => (hpre s hs).1
    have hfull := occCount_full m hh0 hall
    have hs := hwf.sz_eq
    omega


theorem rebuildInit_Wf (m : HashMap K V) (newcap : Nat) (hp : ∃ k, newcap = 2 ^ k) :
    Wf (rebuildInit m newcap) := by
  have hallnull : ∀ i, (rebuildInit m newcap (K := K) (V := V)).is_nullptr.getD i true
      = true := by
    intro i
    show (List.replicate newcap true).getD i true = true
    by_cases hi : i < newcap
    · exact getD_replicate _ _ hi
    · exact getD_of_le _ _ (by rw [List.length_replicate]; omega)
  have husedf : ∀ i, (rebuildInit m newcap (K := K) (V := V)).used.getD i false
      = false := by
    intro i
    show (List.replicate newcap false).getD i false = false
    by_cases hi : i < newcap
    · exact getD_replicate _ _ hi
    · exact getD_of_le _ _ (by rw [List.length_replicate]; omega)
  have hnone : ∀ i, ¬ slotOcc (rebuildInit m newcap) i := by
    intro i hc
    have h1 := hc.1
    rw [hallnull i] at h1
    exact absurd h1 (by simp)
  constructor
  · exact List.length_replicate _ _
  · exact List.length_replicate _ _
  · exact List.length_replicate _ _
  · exact hp
  · show 0 = occCount (rebuildInit m newcap)
    unfold occCount
    exact (Finset.sum_eq_zero fun i _ => if_neg (hnone i)).symm
  · show 0 = nnCount (rebuildInit m newcap)
    unfold nnCount
    exact (Finset.sum_eq_zero fun i _ => if_neg (fun hc => hc (hallnull i))).symm
  · exact Nat.le_refl 0
  · exact Nat.zero_le _
  · exact fun i _ => husedf i

theorem foldl_insert_Wf (fuel : Nat)
    (hins : ∀ (m0 : HashMap K V) (it : K × V) (m1 : HashMap K V), Wf m0 →
      insertF fuel m0 it = some m1 →
      Wf m1 ∧ m1.sz ≤ m0.sz + 1 ∧ m0.buffer_size ≤ m1.buffer_size) :
    ∀ (items : List (K × V)) (m0 m1 : HashMap K V), Wf m0 →
      items.foldlM (fun acc it => insertF fuel acc it) m0 = some m1 →
      Wf m1 ∧ m1.sz ≤ m0.sz + items.length ∧ m0.buffer_size ≤ m1.buffer_size
  | [], m0, m1, h0, heq => by
    rw [List.foldlM_nil] at heq
    cases heq
    exact ⟨h0, by omega, Nat.le_refl _⟩
  | it :: rest, m0, m1, h0, heq => by
    rw [List.foldlM_cons] at heq
    cases hx : insertF fuel m0 it with
    | none =>
      rw [hx] at heq
      exact absurd heq (by simp)
    | some mm =>
      rw [hx] at heq
      have heq' : rest.foldlM (fun acc it => insertF fuel acc it) mm = some m1 := heq
      obtain ⟨hw1, hs1, hc1⟩ := hins m0 it mm h0 hx
      obtain ⟨hw2, hs2, hc2⟩ := foldl_insert_Wf fuel hins rest mm m1 hw1 heq'
      refine ⟨hw2, ?_, Nat.le_trans hc1 hc2⟩
      simp only [List.length_cons]
      omega

/-- insert preserves well-formedness, increases sz by at most one, and
never decreases the capacity (its shrink hook is dead code under Wf). -/
theorem insertF_Wf : ∀ (fuel : Nat) (m : HashMap K V) (item : K × V) (m' : HashMap K V),
    Wf m → insertF fuel m item = some m' →
    Wf m' ∧ m'.sz ≤ m.sz + 1 ∧ m.buffer_size ≤ m'.buffer_size := by
  intro fuel
  induction fuel with
  | zero =>
    intro m item m' hwf heq
    unfold insertF at heq
    split at heq
    · exact absurd heq (by simp)
    · split at heq
      · exact absurd heq (by simp)
      · cases heq
        rename_i hgrow hshrink
        obtain ⟨hw, hc, hlo, hhi⟩ := insertCore_Wf m item hwf (Nat.le_of_not_lt hgrow)
        exact ⟨hw, hhi, Nat.le_of_eq hc.symm⟩
  | succ fuel ih =>
    intro m item m' hwf heq
    rw [insertF_succ] at heq
    split at heq
    · exact absurd heq (by simp)
    · rename_i m1 hm1
      split at heq
      · exact absurd heq (by simp)
      · rename_i m2 hm2
        cases heq
        split at hm1
        · -- the growth hook fired: m1 is the rebuilt table
          rename_i hgrow
          unfold increase_size at hm1
          have hpow2 : ∃ k, m.buffer_size * increasing_size = 2 ^ k := by
            obtain ⟨k, hk⟩ := hwf.pow
            exact ⟨k + 1, by rw [hk]; unfold increasing_size; rw [Nat.pow_succ]⟩
          have hwr := rebuildInit_Wf m (m.buffer_size * increasing_size) hpow2
          obtain ⟨hw1, hs1, hc1⟩ := foldl_insert_Wf fuel ih (liveItems m) _ m1 hwr hm1
          rw [liveItems_length] at hs1
          have hszm : m1.sz ≤ m.sz := by
            have := hwf.sz_eq
            simp only [show (rebuildInit m (m.buffer_size * increasing_size)).sz = 0
              from rfl] at hs1
            omega
          have hcapm : m.buffer_size * 2 ≤ m1.buffer_size := by
            have h2 : (rebuildInit m (m.buffer_size * increasing_size)).buffer_size
                = m.buffer_size * increasing_size := rfl
            rw [h2] at hc1
            exact hc1
          have hpos : 0 < m.buffer_size := hwf.cap_pos
          have hbound : m1.sz + 1 ≤ overload_limit m1.buffer_size := by
            have h1 := hwf.sz_le
            unfold overload_limit at h1 ⊢
            omega
          split at hm2
          · rename_i hcond
            exact absurd hcond (by have := hw1.nn_le; unfold allowed_deleted_elements; omega)
          · cases hm2
            obtain ⟨hw, hcq, hlo, hhi⟩ := insertCore_Wf m1 item hw1 hbound
            refine ⟨hw, by omega, ?_⟩
            rw [hcq]
            omega
        · -- the growth hook did not fire
          cases hm1
          rename_i hgrow
          have hbound : m.sz + 1 ≤ overload_limit m.buffer_size := Nat.le_of_not_lt hgrow
          split at hm2
          · rename_i hcond
            exact absurd hcond (by have := hwf.nn_le; unfold allowed_deleted_elements; omega)
          · cases hm2
            obtain ⟨hw, hcq, hlo, hhi⟩ := insertCore_Wf m item hwf hbound
            exact ⟨hw, hhi, Nat.le_of_eq hcq.symm⟩

theorem decrease_size_Wf (fuel : Nat) (m : HashMap K V) (m' : HashMap K V)
    (hpow : ∃ k, m.buffer_size = 2 ^ k) (h2 : 2 ≤ m.buffer_size)
    (heq : decrease_size fuel m = some m') : Wf m' := by
  unfold decrease_size at heq
  have hpow' : ∃ k, m.buffer_size / decreasing_size = 2 ^ k := by
    obtain ⟨k, hk⟩ := hpow
    match k with
    | 0 =>
      rw [hk] at h2
      exact absurd h2 (by norm_num)
    | k + 1 =>
      refine ⟨k, ?_⟩
      rw [hk]
      unfold decreasing_size
      rw [Nat.pow_succ]
      exact Nat.mul_div_cancel _ (by norm_num)
  exact (foldl_insert_Wf fuel (insertF_Wf fuel) (liveItems m) _ m'
    (rebuildInit_Wf m _ hpow') heq).1

theorem eraseF_Wf (fuel : Nat) (m : HashMap K V) (key : K) (m' : HashMap K V)
    (hwf : Wf m) (heq : eraseF fuel m key = some m') : Wf m' := by
  unfold eraseF at heq
  split at heq
  · cases heq
    exact hwf
  · rename_i h hfs
    obtain ⟨hlt, hocc, -⟩ := findSlot_some m key hwf.cap_pos hfs
    have hsz1 : 1 ≤ m.sz := by
      rw [hwf.sz_eq]
      unfold occCount
      have hle := Finset.single_le_sum (f := fun i => if slotOcc m i then (1 : Nat) else 0)
        (fun i _ => Nat.zero_le _) (Finset.mem_range.mpr hlt)
      simp only [if_pos hocc] at hle
      exact hle
    have hcap2 : 2 ≤ m.buffer_size := by
      have h1 := hwf.sz_le
      unfold overload_limit at h1
      omega
    have hlenu : h < m.used.length := by
      rw [hwf.len_used]
      exact hlt
    split at heq
    · -- shrink hook fires: completely rebuild at half capacity
      split at heq
      · exact absurd heq (by simp)
      · exact decrease_size_Wf _ { m with used := m.used.set h true, sz := m.sz - 1 }
          m' hwf.pow hcap2 heq
    · -- no shrink: the tombstoned state must itself be well formed
      cases heq
      rename_i hcond
      set mE : HashMap K V := { m with used := m.used.set h true, sz := m.sz - 1 }
        with hmE
      have hfnull : mE.is_nullptr = m.is_nullptr := rfl
      have hfused : mE.used = m.used.set h true := rfl
      have hnulliff : ∀ i, slotNull mE i ↔ slotNull m i := fun i =>
        slotNull_iff_of_getD_eq i (by rw [hfnull])
      have hoth : ∀ i, i ≠ h → (slotOcc m i ↔ slotOcc mE i) := by
        intro i hih
        exact (slotOcc_iff_of_getD_eq i (by rw [hfnull])
          (by rw [hfused]; exact getD_set_ne _ _ _ (fun hc => hih hc.symm))).symm
      have hocc' : occCount m = occCount mE + 1 := by
        unfold occCount
        refine sum_ite_flip_down (Finset.mem_range.mpr hlt) hocc ?_ ?_
        · intro hc
          have h1 := hc.2
          rw [hfused, getD_set_self _ h true false hlenu] at h1
          exact absurd h1 (by simp)
        · intro i _ hih
          exact hoth i hih
      constructor
      · show (m.used.set h true).length = m.buffer_size
        rw [List.length_set]
        exact hwf.len_used
      · exact hwf.len_null
      · exact hwf.len_arr
      · exact hwf.pow
      · show m.sz - 1 = occCount mE
        have := hwf.sz_eq
        omega
      · show m.size_all_non_nullptr = nnCount mE
        rw [hwf.nn_eq]
        unfold nnCount
        exact sum_ite_congr_pred fun i _ => not_congr (hnulliff i).symm
      · show m.size_all_non_nullptr ≤ 2 * (m.sz - 1)
        unfold allowed_deleted_elements at hcond
        omega
      · show m.sz - 1 ≤ overload_limit m.buffer_size
        have := hwf.sz_le
        omega
      · intro i hsn
        by_cases hih : i = h
        · subst hih
          have h1 : m.is_nullptr.getD i true = true := (hnulliff i).mp hsn
          have h2 := hocc.1
          rw [h1] at h2
          exact absurd h2 (by simp)
        · rw [hfused, getD_set_ne _ _ _ (fun hc => hih hc.symm)]
          exact hwf.null_used i ((hnulliff i).mp hsn)

theorem init_Wf (hasher : K → Nat) : Wf (init (K := K) (V := V) hasher) := by
  have h : (init hasher : HashMap K V) = rebuildInit (init hasher) default_size := rfl
  rw [h]
  exact rebuildInit_Wf _ _ ⟨3, rfl⟩

theorem applyOp_Wf (m : HashMap K V) (op : Op K V) (m' : HashMap K V)
    (hwf : Wf m) (heq : applyOp m op = some m') : Wf m' := by
  cases op with
  | insert k v => exact (insertF_Wf opFuel m (k, v) m' hwf heq).1
  | erase k => exact eraseF_Wf opFuel m k m' hwf heq
  | clear =>
    cases heq
    exact init_Wf m.hasher
  | index k =>
    simp only [applyOp] at heq
    unfold index at heq
    split at heq
    · rw [Option.map_some'] at heq
      cases heq
      exact hwf
    · split at heq
      · exact absurd heq (by simp)
      · rename_i mi hins
        split at heq
        · rw [Option.map_some'] at heq
          cases heq
          exact (insertF_Wf opFuel m (k, default) mi hwf hins).1
        · exact absurd heq (by simp)

theorem foldl_applyOp_Wf : ∀ (ops : List (Op K V)) (m0 m1 : HashMap K V), Wf m0 →
    ops.foldlM applyOp m0 = some m1 → Wf m1
  | [], m0, m1, h0, heq => by
    rw [List.foldlM_nil] at heq
    cases heq
    exact h0
  | op :: rest, m0, m1, h0, heq => by
    rw [List.foldlM_cons] at heq
    cases hx : applyOp m0 op with
    | none =>
      rw [hx] at heq
      exact absurd heq (by simp)
    | some mm =>
      rw [hx] at heq
      have heq' : rest.foldlM applyOp mm = some m1 := heq
      exact foldl_applyOp_Wf rest mm m1 (applyOp_Wf m0 op mm h0 hx) heq'

/-- Every state reachable by a sequence of public operations on a fresh
table is well formed. -/
theorem runOps_Wf (hasher : K → Nat) (ops : List (Op K V)) (m : HashMap K V)
    (heq : runOps hasher ops = some m) : Wf m :=
  foldl_applyOp_Wf ops (init hasher) m (init_Wf hasher) heq

theorem filterMap_cons_some {α β : Type} (f : α → Option β) (a : α) (l : List α)
    (b : β) (h : f a = some b) : (a :: l).filterMap f = b :: l.filterMap f := by
  rw [List.filterMap_cons, h]

theorem iterGoAux_succ (m : HashMap K V) (fuel pos : Nat) :
    iterGoAux m (fuel + 1) pos =
      if pos < m.arr.length ∧
          (m.is_nullptr.getD pos true = true ∨ m.used.getD pos false = true)
      then iterGoAux m fuel (pos + 1)
      else pos := rfl

theorem enumAux_succ (m : HashMap K V) (fuel pos : Nat) :
    enumAux m (fuel + 1) pos =
      if iterGo m pos < m.arr.length
      then (m.arr.getD (iterGo m pos) default) :: enumAux m fuel (iterGo m pos + 1)
      else [] := rfl

theorem iterGoAux_spec (m : HashMap K V) :
    ∀ (fuel pos : Nat), m.arr.length ≤ pos + fuel →
      pos ≤ iterGoAux m fuel pos ∧
      (∀ q, pos ≤ q → q < iterGoAux m fuel pos →
        (m.is_nullptr.getD q true = true ∨ m.used.getD q false = true)) ∧
      (iterGoAux m fuel pos < m.arr.length →
        m.is_nullptr.getD (iterGoAux m fuel pos) true = false ∧
        m.used.getD (iterGoAux m fuel pos) false = false)
  | 0, pos, hf => by
    refine ⟨Nat.le_refl _, ?_, ?_⟩
    · intro q hq1 hq2
      simp only [iterGoAux] at hq2
      exact absurd hq2 (by omega)
    · intro hlt
      simp only [iterGoAux] at hlt
      exact absurd hlt (by omega)
  | fuel + 1, pos, hf => by
    by_cases hcond : pos < m.arr.length ∧
        (m.is_nullptr.getD pos true = true ∨ m.used.getD pos false = true)
    · have hstep : iterGoAux m (fuel + 1) pos = iterGoAux m fuel (pos + 1) := by
        rw [iterGoAux_succ, if_pos hcond]
      obtain ⟨h1, h2, h3⟩ := iterGoAux_spec m fuel (pos + 1) (by omega)
      rw [hstep]
      refine ⟨by omega, ?_, h3⟩
      intro q hq1 hq2
      rcases Nat.eq_or_lt_of_le hq1 with hq | hq
      · rw [← hq]
        exact hcond.2
      · exact h2 q (by omega) hq2
    · have hstop : iterGoAux m (fuel + 1) pos = pos := by
        rw [iterGoAux_succ, if_neg hcond]
      rw [hstop]
      refine ⟨Nat.le_refl _, fun q hq1 hq2 => absurd hq1 (by omega), ?_⟩
      intro hlt
      have h4 : ¬(m.is_nullptr.getD pos true = true ∨ m.used.getD pos false = true) :=
        fun hc => hcond ⟨hlt, hc⟩
      constructor
      · cases hb : m.is_nullptr.getD pos true
        · rfl
        · exact absurd (Or.inl hb) h4
      · cases hb : m.used.getD pos false
        · rfl
        · exact absurd (Or.inr hb) h4

theorem iterGo_spec (m : HashMap K V) (pos : Nat) :
    pos ≤ iterGo m pos ∧
    (∀ q, pos ≤ q → q < iterGo m pos →
      (m.is_nullptr.getD q true = true ∨ m.used.getD q false = true)) ∧
    (iterGo m pos < m.arr.length →
      m.is_nullptr.getD (iterGo m pos) true = false ∧
      m.used.getD (iterGo m pos) false = false) :=
  iterGoAux_spec m (m.arr.length - pos) pos (by omega)

theorem enumAux_spec (m : HashMap K V) :
    ∀ (fuel pos : Nat), m.arr.length ≤ pos + fuel →
      enumAux m fuel pos = (List.range' pos (m.arr.length - pos)).filterMap
        (fun i => if m.is_nullptr.getD i true = false ∧ m.used.getD i false = false
          then some (m.arr.getD i default) else none)
  | 0, pos, hf => by
    have h0 : m.arr.length - pos = 0 := by omega
    rw [h0]
    rfl
  | fuel + 1, pos, hf => by
    obtain ⟨hge, hskip, hstop⟩ := iterGo_spec m pos
    by_cases hp : iterGo m pos < m.arr.length
    · have hlive := hstop hp
      have hstep : enumAux m (fuel + 1) pos
          = m.arr.getD (iterGo m pos) default :: enumAux m fuel (iterGo m pos + 1) := by
        rw [enumAux_succ, if_pos hp]
      rw [hstep, enumAux_spec m fuel (iterGo m pos + 1) (by omega)]
      have hsplit : List.range' pos (m.arr.length - pos)
          = List.range' pos (iterGo m pos - pos)
            ++ List.range' (iterGo m pos) (m.arr.length - iterGo m pos) := by
        have h1 := List.range'_append_1 pos (iterGo m pos - pos) (m.arr.length - iterGo m pos)
        rw [show pos + (iterGo m pos - pos) = iterGo m pos from by omega,
          show (m.arr.length - iterGo m pos) + (iterGo m pos - pos) = m.arr.length - pos
            from by omega] at h1
        exact h1.symm
      rw [hsplit, List.filterMap_append]
      have hnil : (List.range' pos (iterGo m pos - pos)).filterMap
          (fun i => if m.is_nullptr.getD i true = false ∧ m.used.getD i false = false
            then some (m.arr.getD i default) else none) = [] := by
        rw [List.filterMap_eq_nil_iff]
        intro a ha
        rw [List.mem_range'_1] at ha
        have hnl := hskip a ha.1 (by omega)
        rcases hnl with h | h
        · rw [if_neg]
          intro hc
          rw [h] at hc
          exact absurd hc.1 (by simp)
        · rw [if_neg]
          intro hc
          rw [h] at hc
          exact absurd hc.2 (by simp)
      rw [hnil, List.nil_append]
      have hrange2 : List.range' (iterGo m pos) (m.arr.length - iterGo m pos)
          = iterGo m pos
            :: List.range' (iterGo m pos + 1) (m.arr.length - (iterGo m pos + 1)) := by
        rw [show m.arr.length - iterGo m pos = (m.arr.length - (iterGo m pos + 1)) + 1
          from by omega, List.range'_succ]
      rw [hrange2, filterMap_cons_some
        (fun i => if m.is_nullptr.getD i true = false ∧ m.used.getD i false = false
          then some (m.arr.getD i default) else none)
        (iterGo m pos)
        (List.range' (iterGo m pos + 1) (m.arr.length - (iterGo m pos + 1)))
        (m.arr.getD (iterGo m pos) default) (if_pos hlive)]
    · have hstep : enumAux m (fuel + 1) pos = [] := by
        rw [enumAux_succ, if_neg hp]
      rw [hstep]
      symm
      rw [List.filterMap_eq_nil_iff]
      intro a ha
      rw [List.mem_range'_1] at ha
      have hnl := hskip a ha.1 (by omega)
      rcases hnl with h | h
      · rw [if_neg]
        intro hc
        rw [h] at hc
        exact absurd hc.1 (by simp)
      · rw [if_neg]
        intro hc
        rw [h] at hc
        exact absurd hc.2 (by simp)

/-- The iteration from begin() to end() yields exactly the occupied slots
in table order, for any table whose array length matches its capacity. -/
theorem toList_eq_liveItems (m : HashMap K V) (hlen : m.arr.length = m.buffer_size) :
    toList m = liveItems m := by
  unfold toList liveItems
  rw [enumAux_spec m (m.arr.length + 1) 0 (by omega), Nat.sub_zero, hlen,
    ← List.range_eq_range']

/-- Under the chain invariant a key occupies at most one slot. -/
theorem Good_unique {m : HashMap K V} (hg : Good m) :
    ∀ j j', j < m.buffer_size → j' < m.buffer_size → slotOcc m j → slotOcc m j' →
      keyAt m j = keyAt m j' → j = j' := by
  intro j j' hj hj' hocc hocc' hkey
  obtain ⟨t, ht, hjt, hpre⟩ := hg.2.2 j hj hocc
  obtain ⟨t', ht', hjt', hpre'⟩ := hg.2.2 j' hj' hocc'
  rw [hkey] at hjt hpre
  rcases Nat.lt_trichotomy t t' with hlt | heqt | hgt
  · exfalso
    have hp := hpre' t hlt
    rw [← hjt] at hp
    exact hp.2 hkey
  · rw [heqt] at hjt
    rw [hjt, ← hjt']
  · exfalso
    have hp := hpre t' hgt
    rw [← hjt'] at hp
    exact hp.2 rfl

/-- Walking the find loop along an all-live non-matching prefix reaches the
matching slot. -/
theorem findLoop_reach {m : HashMap K V} (key : K) :
    ∀ (t fuel h : Nat), h < m.buffer_size → t < fuel →
      (∀ s < t, slotOcc m ((h + s) % m.buffer_size) ∧
        keyAt m ((h + s) % m.buffer_size) ≠ key) →
      slotOcc m ((h + t) % m.buffer_size) →
      keyAt m ((h + t) % m.buffer_size) = key →
      findLoop m key fuel h = some ((h + t) % m.buffer_size)
  | 0, 0, h, hh, hf, _, _, _ => absurd hf (by omega)
  | 0, fuel + 1, h, hh, hf, hpre, hocc, hkey => by
    have hzero : (h + 0) % m.buffer_size = h := by
      rw [Nat.add_zero, Nat.mod_eq_of_lt hh]
    rw [hzero] at hocc hkey
    unfold findLoop
    rw [if_neg (by rw [hocc.1]; exact Bool.false_ne_true), if_pos ⟨hkey, hocc.2⟩, hzero]
  | t + 1, fuel + 1, h, hh, hf, hpre, hocc, hkey => by
    have hzero : (h + 0) % m.buffer_size = h := by
      rw [Nat.add_zero, Nat.mod_eq_of_lt hh]
    have hp0 := hpre 0 (by omega)
    rw [hzero] at hp0
    unfold findLoop
    rw [if_neg (by rw [hp0.1.1]; exact Bool.false_ne_true),
      if_neg (fun hc => hp0.2 hc.1)]
    have hrec := findLoop_reach key t fuel ((h + 1) % m.buffer_size)
      (Nat.mod_lt _ (by omega)) (by omega)
      (fun s hs => by
        have hp := hpre (s + 1) (by omega)
        rwa [← probe_step] at hp)
      (by rw [probe_step]; exact hocc)
      (by rw [probe_step]; exact hkey)
    rw [hrec, probe_step]

/-- In a Good state, find returns the stored value of any stored pair. -/
theorem Good_findVal {m : HashMap K V} (hg : Good m) {k : K} {v : V}
    (hp : hasPair m k v) : findVal m k = some v := by
  obtain ⟨j, hj, hocc, harr⟩ := hp
  have hkey : keyAt m j = k := by
    unfold keyAt
    rw [harr]
  obtain ⟨t, ht, hjt, hpre⟩ := hg.2.2 j hj hocc
  rw [hkey] at hjt hpre
  have hh0 : m.hasher k % m.buffer_size < m.buffer_size := Nat.mod_lt _ (by omega)
  have hfind : findSlot m k = some j := by
    unfold findSlot
    rw [hjt]
    exact findLoop_reach k t m.buffer_size _ hh0 ht
      (fun s hs => ⟨(hpre s hs).1, (hpre s hs).2⟩)
      (by rw [← hjt]; exact hocc) (by rw [← hjt]; exact hkey)
  unfold findVal
  rw [hfind, Option.map_some', harr]

/-- The write phase of insert on an absent key in a Good state: the pair
lands in a fresh slot, every stored pair survives unchanged, and all three
Good invariants are preserved. -/
theorem insertCore_Good (m : HashMap K V) (k : K) (v : V) (hg : Good m)
    (habs : noOcc m k) (hcap : m.sz + 1 ≤ overload_limit m.buffer_size) :
    Good (insertCore m (k, v)) ∧
    (insertCore m (k, v)).buffer_size = m.buffer_size ∧
    (insertCore m (k, v)).sz = m.sz + 1 ∧
    hasPair (insertCore m (k, v)) k v ∧
    (∀ k' v', hasPair m k' v' → hasPair (insertCore m (k, v)) k' v') ∧
    (∀ k', noOcc m k' → k' ≠ k → noOcc (insertCore m (k, v)) k') := by
  have hwf := hg.1
  have hpos : 0 < m.buffer_size := hwf.cap_pos
  have hlim : overload_limit m.buffer_size < m.buffer_size := by
    unfold overload_limit
    omega
  obtain ⟨hw', -, -, -⟩ := insertCore_Wf m (k, v) hwf hcap
  have hh0 : m.hasher k % m.buffer_size < m.buffer_size := Nat.mod_lt _ hpos
  obtain ⟨t, ht, hpre, hres⟩ := insertLoop_spec m k m.buffer_size _ hh0
  have hnotfull : t < m.buffer_size := by
    rcases Nat.lt_or_ge t m.buffer_size with h | h
    · exact h
    · exfalso
      have hteq : t = m.buffer_size := by omega
      subst hteq
      have hfull := occCount_full m hh0 (fun s hs => (hpre s hs).1)
      have := hwf.sz_eq
      omega
  rcases hres with ⟨heq, hocc, hkey⟩ | ⟨heq, hnull⟩ | ⟨heq, htomb⟩ | ⟨heq, htf⟩
  · exact absurd hkey (habs _ (Nat.mod_lt _ hpos) hocc)
  · -- fresh write at slot j
    have hjlt : (m.hasher k % m.buffer_size + t) % m.buffer_size < m.buffer_size :=
      Nat.mod_lt _ hpos
    set j := (m.hasher k % m.buffer_size + t) % m.buffer_size with hj
    have hce : insertCore m (k, v) = placeProbe m (k, v) (.fresh j) := by
      unfold insertCore
      exact congrArg (placeProbe m (k, v)) heq
    rw [hce]
    set m' : HashMap K V := placeProbe m (k, v) (.fresh j) with hm'
    have hwm' : Wf m' := by rwa [hce] at hw'
    have hfcap : m'.buffer_size = m.buffer_size := rfl
    have hfused : m'.used = m.used := rfl
    have hfnull : m'.is_nullptr = m.is_nullptr.set j false := rfl
    have hfarr : m'.arr = m.arr.set j (k, v) := rfl
    have hfsz : m'.sz = m.sz + 1 := rfl
    have hfhash : m'.hasher = m.hasher := rfl
    have hjlen : j < m.is_nullptr.length := by
      rw [hwf.len_null]
      exact hjlt
    have hjlena : j < m.arr.length := by
      rw [hwf.len_arr]
      exact hjlt
    have hoccj' : slotOcc m' j :=
      ⟨by rw [hfnull]; exact getD_set_self _ j false true hjlen,
       by rw [hfused]; exact hwf.null_used j hnull⟩
    have harrj' : m'.arr.getD j default = (k, v) := by
      rw [hfarr]
      exact getD_set_self _ j (k, v) default hjlena
    have hkeyj' : keyAt m' j = k := by
      unfold keyAt
      rw [harrj']
    have hnotoccj : ¬ slotOcc m j := by
      intro hc
      have h1 := hc.1
      rw [hnull] at h1
      exact absurd h1 (by simp)
    have hoth : ∀ i, i ≠ j →
        m'.is_nullptr.getD i true = m.is_nullptr.getD i true ∧
        m'.used.getD i false = m.used.getD i false ∧
        m'.arr.getD i default = m.arr.getD i default := by
      intro i hij
      exact ⟨by rw [hfnull]; exact getD_set_ne _ _ _ (fun hc => hij hc.symm),
        by rw [hfused],
        by rw [hfarr]; exact getD_set_ne _ _ _ (fun hc => hij hc.symm)⟩
    have hocciff : ∀ i, i ≠ j → (slotOcc m' i ↔ slotOcc m i) := fun i hij =>
      slotOcc_iff_of_getD_eq i (hoth i hij).1 (hoth i hij).2.1
    have hkeyeq : ∀ i, i ≠ j → keyAt m' i = keyAt m i := by
      intro i hij
      unfold keyAt
      rw [(hoth i hij).2.2]
    have hprej : ∀ s < t, (m.hasher k % m.buffer_size + s) % m.buffer_size ≠ j := by
      intro s hs hc
      exact hnotoccj (hc ▸ (hpre s hs).1)
    refine ⟨⟨hwm', ?_, ?_⟩, rfl, rfl, ?_, ?_, ?_⟩
    · -- tombFree
      intro i
      rw [hfused]
      exact hg.2.1 i
    · -- chainInv
      intro j' hj' hoccj''
      by_cases hij : j' = j
      · subst hij
        refine ⟨t, hnotfull, ?_, ?_⟩
        · rw [hkeyj', hfcap, hfhash]
        · intro s hs
          rw [hkeyj', hfcap, hfhash]
          have hne := hprej s hs
          constructor
          · exact (hocciff _ hne).mpr (hpre s hs).1
          · rw [hkeyeq _ hne]
            exact (hpre s hs).2
      · have hoccm : slotOcc m j' := (hocciff j' hij).mp hoccj''
        obtain ⟨t', ht', hjt', hpre'⟩ := hg.2.2 j' (by rw [hfcap] at hj'; exact hj') hoccm
        refine ⟨t', by rw [hfcap]; exact ht', ?_, ?_⟩
        · rw [hkeyeq j' hij, hfcap, hfhash]
          exact hjt'
        · intro s hs
          rw [hkeyeq j' hij, hfcap, hfhash]
          have hps := hpre' s hs
          have hne : (m.hasher (keyAt m j') % m.buffer_size + s) % m.buffer_size ≠ j := by
            intro hc
            exact hnotoccj (hc ▸ hps.1)
          constructor
          · exact (hocciff _ hne).mpr hps.1
          · rw [hkeyeq _ hne]
            exact hps.2
    · -- hasPair for the new key
      exact ⟨j, by rw [hfcap]; exact hjlt, hoccj', harrj'⟩
    · -- stored pairs survive
      rintro k' v' ⟨j', hj', hocc', harr'⟩
      have hij : j' ≠ j := by
        intro hc
        exact hnotoccj (hc ▸ hocc')
      exact ⟨j', by rw [hfcap]; exact hj', (hocciff j' hij).mpr hocc',
        by rw [(hoth j' hij).2.2]; exact harr'⟩
    · -- absent keys other than k stay absent
      intro k' hk' hne j' hj' hocc'
      by_cases hij : j' = j
      · subst hij
        rw [hkeyj']
        exact fun hc => hne hc.symm
      · rw [hkeyeq j' hij]
        exact hk' j' (by rw [hfcap] at hj'; exact hj') ((hocciff j' hij).mp hocc')
  · -- a tombstone cannot occur in a tombstone free state
    exfalso
    have := htomb.2
    rw [hg.2.1 _] at this
    exact absurd this (by simp)
  · exact absurd htf (by omega)

/-- When neither capacity hook fires, insert reduces to its probe and
write phases for any fuel. -/
theorem insertF_no_hooks (fuel : Nat) (m : HashMap K V) (item : K × V)
    (h1 : ¬(m.sz + 1 > overload_limit m.buffer_size))
    (h2 : ¬(m.size_all_non_nullptr > allowed_deleted_elements * m.sz)) :
    insertF fuel m item = some (insertCore m item) := by
  cases fuel with
  | zero =>
    unfold insertF
    rw [if_neg h1, if_neg h2]
  | succ f =>
    have hred : insertF (f + 1) m item
        = match (if m.size_all_non_nullptr > allowed_deleted_elements * m.sz then
            decrease_size f m else some m) with
          | none => none
          | some m2 => some (insertCore m2 item) := by
      rw [insertF_succ, if_neg h1]
    rw [hred, if_neg h2]

theorem rebuildInit_noSlot (m : HashMap K V) (newcap : Nat) :
    ∀ i, ¬ slotOcc (rebuildInit m newcap) i := by
  intro i hc
  have h1 := hc.1
  have hall : (rebuildInit m newcap).is_nullptr.getD i true = true := by
    show (List.replicate newcap true).getD i true = true
    by_cases hi : i < newcap
    · exact getD_replicate _ _ hi
    · exact getD_of_le _ _ (by rw [List.length_replicate]; omega)
  rw [hall] at h1
  exact absurd h1 (by simp)

theorem rebuildInit_Good (m : HashMap K V) (newcap : Nat) (hp : ∃ k, newcap = 2 ^ k) :
    Good (rebuildInit m newcap) := by
  refine ⟨rebuildInit_Wf m newcap hp, ?_, ?_⟩
  · intro i
    show (List.replicate newcap false).getD i false = false
    by_cases hi : i < newcap
    · exact getD_replicate _ _ hi
    · exact getD_of_le _ _ (by rw [List.length_replicate]; omega)
  · intro j hj hocc
    exact absurd hocc (rebuildInit_noSlot m newcap j)

theorem rebuildInit_noOcc (m : HashMap K V) (newcap : Nat) (k : K) :
    noOcc (rebuildInit m newcap) k :=
  fun j _ hocc => absurd hocc (rebuildInit_noSlot m newcap j)

theorem hasPair_iff_mem_liveItems (m : HashMap K V) (k : K) (v : V) :
    hasPair m k v ↔ (k, v) ∈ liveItems m := by
  unfold hasPair liveItems
  rw [List.mem_filterMap]
  constructor
  · rintro ⟨j, hj, hocc, harr⟩
    refine ⟨j, List.mem_range.mpr hj, ?_⟩
    rw [if_pos ⟨hocc.1, hocc.2⟩, harr]
  · rintro ⟨j, hj, hcond⟩
    by_cases hP : m.is_nullptr.getD j true = false ∧ m.used.getD j false = false
    · rw [if_pos hP] at hcond
      injection hcond with harr
      exact ⟨j, List.mem_range.mp hj, ⟨hP.1, hP.2⟩, harr⟩
    · rw [if_neg hP] at hcond
      exact absurd hcond (by simp)

/-- Absent keys do not appear among the reinserted occupied entries. -/
theorem noOcc_liveItems_keys {m : HashMap K V} {k : K} (habs : noOcc m k) :
    ∀ p ∈ liveItems m, p.1 ≠ k := by
  intro p hp hc
  have hpair : hasPair m p.1 p.2 := (hasPair_iff_mem_liveItems m p.1 p.2).mpr
    (by rw [Prod.mk.eta]; exact hp)
  obtain ⟨j, hj, hocc, harr⟩ := hpair
  apply habs j hj hocc
  unfold keyAt
  rw [harr]
  exact hc

/-- In a Good state the live keys are pairwise distinct. -/
theorem liveItems_keys_nodup {m : HashMap K V} (hg : Good m) :
    ((liveItems m).map Prod.fst).Nodup := by
  unfold liveItems
  rw [List.map_filterMap]
  refine List.Nodup.filterMap ?_ (List.nodup_range _)
  intro a a' b hb hb'
  rw [Option.mem_def] at hb hb'
  by_cases hPa : m.is_nullptr.getD a true = false ∧ m.used.getD a false = false
  · by_cases hPa' : m.is_nullptr.getD a' true = false ∧ m.used.getD a' false = false
    · rw [if_pos hPa, Option.map_some'] at hb
      rw [if_pos hPa', Option.map_some'] at hb'
      injection hb with hb
      injection hb' with hb'
      have ha : a < m.buffer_size := by
        by_contra hc
        have := hPa.1
        rw [getD_of_le _ _ (by rw [hg.1.len_null]; omega)] at this
        exact absurd this (by simp)
      have ha' : a' < m.buffer_size := by
        by_contra hc
        have := hPa'.1
        rw [getD_of_le _ _ (by rw [hg.1.len_null]; omega)] at this
        exact absurd this (by simp)
      exact Good_unique hg a a' ha ha' ⟨hPa.1, hPa.2⟩ ⟨hPa'.1, hPa'.2⟩
        (by unfold keyAt; rw [hb, hb'])
    · rw [if_neg hPa'] at hb'
      exact absurd hb' (by simp)
  · rw [if_neg hPa] at hb
    exact absurd hb (by simp)

/-- Reinserting pairwise fresh keys into a Good table whose capacity can
absorb them: the fold succeeds at any fuel with no hook ever firing, and
collects exactly the new pairs on top of the old ones. -/
theorem foldl_insert_Good (fuel : Nat) :
    ∀ (items : List (K × V)) (m0 : HashMap K V),
      Good m0 →
      ((items.map Prod.fst).Nodup) →
      (∀ p ∈ items, noOcc m0 p.1) →
      m0.sz + items.length ≤ overload_limit m0.buffer_size →
      ∃ m1, items.foldlM (fun acc it => insertF fuel acc it) m0 = some m1 ∧
        Good m1 ∧ m1.buffer_size = m0.buffer_size ∧
        m1.sz = m0.sz + items.length ∧
        (∀ p ∈ items, hasPair m1 p.1 p.2) ∧
        (∀ k' v', hasPair m0 k' v' → hasPair m1 k' v') ∧
        (∀ k', noOcc m0 k' → (∀ p ∈ items, p.1 ≠ k') → noOcc m1 k')
  | [], m0, hg, _, _, _ => by
    refine ⟨m0, by rw [List.foldlM_nil]; rfl, hg, rfl, by simp, by simp, fun k' v' h => h,
      fun k' h _ => h⟩
  | (k, v) :: rest, m0, hg, hnd, habs, hroom => by
    rw [List.map_cons] at hnd
    obtain ⟨hknotin, hndrest⟩ := List.nodup_cons.mp hnd
    have habsk : noOcc m0 k := habs (k, v) (List.mem_cons_self _ _)
    have h1 : ¬(m0.sz + 1 > overload_limit m0.buffer_size) := by
      simp only [List.length_cons] at hroom
      omega
    have h2 : ¬(m0.size_all_non_nullptr > allowed_deleted_elements * m0.sz) := by
      have := hg.1.nn_le
      unfold allowed_deleted_elements
      omega
    obtain ⟨hGoodC, hcapC, hszC, hpairC, hpresC, hnoC⟩ :=
      insertCore_Good m0 k v hg habsk (by omega)
    have hfrest : ∀ p ∈ rest, noOcc (insertCore m0 (k, v)) p.1 := by
      intro p hp
      refine hnoC p.1 (habs p (List.mem_cons_of_mem _ hp)) ?_
      intro hc
      exact hknotin (List.mem_map.mpr ⟨p, hp, hc⟩)
    have hroomC : (insertCore m0 (k, v)).sz + rest.length
        ≤ overload_limit (insertCore m0 (k, v)).buffer_size := by
      rw [hszC, hcapC]
      simp only [List.length_cons] at hroom
      omega
    obtain ⟨m1, hfold, hGood1, hcap1, hsz1, hpairs1, hpres1, hno1⟩ :=
      foldl_insert_Good fuel rest (insertCore m0 (k, v)) hGoodC hndrest hfrest hroomC
    refine ⟨m1, ?_, hGood1, by rw [hcap1, hcapC], ?_, ?_, ?_, ?_⟩
    · rw [List.foldlM_cons, insertF_no_hooks fuel m0 (k, v) h1 h2]
      exact hfold
    · rw [hsz1, hszC]
      simp only [List.length_cons]
      omega
    · intro p hp
      rcases List.mem_cons.mp hp with hph | hpt
      · subst hph
        exact hpres1 k v hpairC
      · exact hpairs1 p hpt
    · intro k' v' h
      exact hpres1 k' v' (hpresC k' v' h)
    · intro k' hk' hne
      refine hno1 k' (hnoC k' hk' ?_) ?_
      · exact fun hc => hne (k, v) (List.mem_cons_self _ _) hc.symm
      · intro p hp
        exact hne p (List.mem_cons_of_mem _ hp)

/-- The full insert on an absent key in a Good state: it succeeds with one
unit of fuel (the growth rebuild never nests), the new pair becomes
stored, old pairs survive, and other absent keys stay absent. -/
theorem insertF_Good (fuel : Nat) (m : HashMap K V) (k : K) (v : V)
    (hg : Good m) (habs : noOcc m k) :
    ∃ m', insertF (fuel + 1) m (k, v) = some m' ∧ Good m' ∧
      hasPair m' k v ∧ (∀ k' v', hasPair m k' v' → hasPair m' k' v') ∧
      (∀ k', noOcc m k' → k' ≠ k → noOcc m' k') := by
  have hwf := hg.1
  have hpos : 0 < m.buffer_size := hwf.cap_pos
  by_cases hgrow : m.sz + 1 > overload_limit m.buffer_size
  · -- the growth hook fires and rebuilds into double capacity
    have hszlim : m.sz = overload_limit m.buffer_size := by
      have := hwf.sz_le
      omega
    have hpow2 : ∃ kk, m.buffer_size * increasing_size = 2 ^ kk := by
      obtain ⟨kk, hk⟩ := hwf.pow
      exact ⟨kk + 1, by rw [hk]; unfold increasing_size; rw [Nat.pow_succ]⟩
    have hGood0 := rebuildInit_Good m (m.buffer_size * increasing_size) hpow2
    have hroom0 : (rebuildInit m (m.buffer_size * increasing_size)).sz
        + (liveItems m).length
        ≤ overload_limit (rebuildInit m (m.buffer_size * increasing_size)).buffer_size := by
      show 0 + (liveItems m).length ≤ overload_limit (m.buffer_size * increasing_size)
      rw [liveItems_length, ← hwf.sz_eq, hszlim]
      unfold overload_limit increasing_size
      omega
    obtain ⟨m1, hfold, hGood1, hcap1, hsz1, hpairs1, hpres1, hno1⟩ :=
      foldl_insert_Good fuel (liveItems m) (rebuildInit m (m.buffer_size * increasing_size))
        hGood0 (liveItems_keys_nodup hg) (fun p _ => rebuildInit_noOcc _ _ _) hroom0
    have hm1 : increase_size fuel m = some m1 := by
      unfold increase_size
      exact hfold
    have hsz1' : m1.sz = m.sz := by
      rw [hsz1, liveItems_length, ← hwf.sz_eq]
      show 0 + m.sz = m.sz
      exact Nat.zero_add _
    have hcap1' : m1.buffer_size = m.buffer_size * increasing_size := hcap1
    have hsh : ¬(m1.size_all_non_nullptr > allowed_deleted_elements * m1.sz) := by
      have := hGood1.1.nn_le
      unfold allowed_deleted_elements
      omega
    have hstep : insertF (fuel + 1) m (k, v)
        = match (if m1.size_all_non_nullptr > allowed_deleted_elements * m1.sz then
            decrease_size fuel m1 else some m1) with
          | none => none
          | some m2 => some (insertCore m2 (k, v)) := by
      rw [insertF_succ, if_pos hgrow, hm1]
    have hred : insertF (fuel + 1) m (k, v) = some (insertCore m1 (k, v)) := by
      rw [hstep, if_neg hsh]
    have habs1 : noOcc m1 k :=
      hno1 k (rebuildInit_noOcc _ _ _) (noOcc_liveItems_keys habs)
    have hbound1 : m1.sz + 1 ≤ overload_limit m1.buffer_size := by
      rw [hsz1', hszlim, hcap1']
      unfold overload_limit increasing_size
      omega
    obtain ⟨hGoodC, hcapC, hszC, hpairC, hpresC, hnoC⟩ :=
      insertCore_Good m1 k v hGood1 habs1 hbound1
    refine ⟨insertCore m1 (k, v), hred, hGoodC, hpairC, ?_, ?_⟩
    · intro k' v' h
      exact hpresC k' v' (hpairs1 (k', v') ((hasPair_iff_mem_liveItems m k' v').mp h))
    · intro k' hk' hne
      refine hnoC k' ?_ hne
      exact hno1 k' (rebuildInit_noOcc _ _ _) (noOcc_liveItems_keys hk')
  · -- no hook fires
    have h2 : ¬(m.size_all_non_nullptr > allowed_deleted_elements * m.sz) := by
      have := hwf.nn_le
      unfold allowed_deleted_elements
      omega
    obtain ⟨hGoodC, hcapC, hszC, hpairC, hpresC, hnoC⟩ :=
      insertCore_Good m k v hg habs (by omega)
    exact ⟨insertCore m (k, v), insertF_no_hooks (fuel + 1) m (k, v) hgrow h2,
      hGoodC, hpairC, hpresC, hnoC⟩

/-- Running a sequence of inserts with pairwise distinct fresh keys through
the public operation layer: every inserted pair is stored afterwards. -/
theorem runInserts_Good : ∀ (pairs : List (K × V)) (m0 : HashMap K V),
    Good m0 → ((pairs.map Prod.fst).Nodup) → (∀ p ∈ pairs, noOcc m0 p.1) →
    ∃ m1, (pairs.map fun p => Op.insert p.1 p.2).foldlM applyOp m0 = some m1 ∧
      Good m1 ∧ (∀ p ∈ pairs, hasPair m1 p.1 p.2) ∧
      (∀ k' v', hasPair m0 k' v' → hasPair m1 k' v') ∧
      (∀ k', noOcc m0 k' → (∀ p ∈ pairs, p.1 ≠ k') → noOcc m1 k')
  | [], m0, hg, _, _ =>
    ⟨m0, by rw [List.map_nil, List.foldlM_nil]; rfl, hg, by simp, fun k' v' h => h,
      fun k' h _ => h⟩
  | (k, v) :: rest, m0, hg, hnd, habs => by
    rw [List.map_cons] at hnd
    obtain ⟨hknotin, hndrest⟩ := List.nodup_cons.mp hnd
    obtain ⟨mC, hins, hGoodC, hpairC, hpresC, hnoC⟩ :=
      insertF_Good 15 m0 k v hg (habs (k, v) (List.mem_cons_self _ _))
    have hfrest : ∀ p ∈ rest, noOcc mC p.1 := by
      intro p hp
      refine hnoC p.1 (habs p (List.mem_cons_of_mem _ hp)) ?_
      intro hc
      exact hknotin (List.mem_map.mpr ⟨p, hp, hc⟩)
    obtain ⟨m1, hfold, hGood1, hpairs1, hpres1, hno1⟩ :=
      runInserts_Good rest mC hGoodC hndrest hfrest
    refine ⟨m1, ?_, hGood1, ?_, ?_, ?_⟩
    · rw [List.map_cons, List.foldlM_cons]
      have happ : applyOp m0 (Op.insert k v) = some mC := hins
      rw [happ]
      exact hfold
    · intro p hp
      rcases List.mem_cons.mp hp with hph | hpt
      · subst hph
        exact hpres1 k v hpairC
      · exact hpairs1 p hpt
    · exact fun k' v' h => hpres1 k' v' (hpresC k' v' h)
    · intro k' hk' hne
      refine hno1 k'
        (hnoC k' hk' (fun hc => hne (k, v) (List.mem_cons_self _ _) hc.symm)) ?_
      intro p hp
      exact hne p (List.mem_cons_of_mem _ hp)

end Invariant

end Variant1

/-- Claim C1 (code bug in variant 1): after insert(0,10), insert(8,11),
erase(0), the key 8 is present with value 11 and its occupied slot lies
after a tombstone on its probe chain.  insert(8,12) is then not a no-op:
the probe loop breaks at the tombstone before reaching the occupied slot,
so the mapping of 8 becomes 12 and size() grows to 2. -/
theorem C1_insert_not_noop_after_tombstone :
    Variant1.runFind (fun k => k)
        [Variant1.Op.insert 0 10, Variant1.Op.insert 8 11, Variant1.Op.erase 0] 8
      = some (some 11) ∧
    Variant1.runFind (fun k => k) bugOps 8 = some (some 12) ∧
    Variant1.runSize (fun k => k) bugOps = some 2 :=
  ⟨rfl, rfl, rfl⟩

/-- Claim C2 counterexample: inserting one key and erasing it makes the
shrink check fire (one stale slot against zero live entries) and
decrease_size halves the capacity with no floor, so buffer_size becomes 4,
below the claimed minimum of 8. -/
theorem C2_capacity_drops_below_8 :
    Variant1.runCap (fun k => k)
        [Variant1.Op.insert 0 (10 : Nat), Variant1.Op.erase 0] = some 4 ∧ (4 : Nat) < 8 :=
  ⟨rfl, by norm_num⟩

/-- Claim C2 (amended): in every reachable state of variant 1 the capacity
is a power of two and at least 1; the claimed lower bound of 8 does not
hold (see C2_capacity_drops_below_8). -/
theorem C2_capacity_pow2_pos {K V : Type} [DecidableEq K] [Inhabited K] [Inhabited V]
    (hasher : K → Nat) (ops : List (Variant1.Op K V)) (m : Variant1.HashMap K V)
    (heq : Variant1.runOps hasher ops = some m) :
    (∃ k, m.buffer_size = 2 ^ k) ∧ 1 ≤ m.buffer_size := by
  have hwf := Variant1.runOps_Wf hasher ops m heq
  exact ⟨hwf.pow, hwf.cap_pos⟩

/-- Witness for C2_capacity_pow2_pos at the empty run. -/
theorem C2_capacity_pow2_pos_witness :
    Variant1.runOps (fun k => k) ([] : List (Variant1.Op Nat Nat))
        = some (Variant1.init fun k => k) ∧
      ((∃ k, (Variant1.init (fun k => k) : Variant1.HashMap Nat Nat).buffer_size = 2 ^ k) ∧
        1 ≤ (Variant1.init (fun k => k) : Variant1.HashMap Nat Nat).buffer_size) :=
  ⟨rfl, C2_capacity_pow2_pos (fun k => k) [] _ rfl⟩

/-- Claim C3 (code bug in variant 1): after the bugOps run, slots 0 and 1
are both live and both hold key 8, size() is 2, find(8) succeeds and
find(0) fails: a present key occupies two slots and size() exceeds the
number of keys find succeeds on. -/
theorem C3_duplicate_key_two_slots :
    (Variant1.runOps (fun k => k) bugOps).map
        (fun m => (m.sz, decide (Variant1.slotOcc m 0), decide (Variant1.slotOcc m 1),
          Variant1.keyAt m 0, Variant1.keyAt m 1,
          Variant1.findVal m 8, Variant1.findVal m 0))
      = some (2, true, true, 8, 8, some 12, none) := rfl

/-- Claim C5 (code bug in variant 1): in the reachable bugOps state the key
8 is present (find yields 12); erase(8) decrements size() to 1 but does
not make find(8) absent: it tombstones only the first of the two slots
holding key 8, and find(8) then yields 11. -/
theorem C5_erase_leaves_key_findable :
    Variant1.runFind (fun k => k) bugOps 8 = some (some 12) ∧
    Variant1.runFind (fun k => k) (bugOps ++ [Variant1.Op.erase 8]) 8 = some (some 11) ∧
    Variant1.runSize (fun k => k) (bugOps ++ [Variant1.Op.erase 8]) = some 1 :=
  ⟨rfl, rfl, rfl⟩

/-- Claim C6 (code bug in variant 1): in the reachable c6ops state, key 7
is absent, size() is 6 and at(7) fails as claimed; but index(7) triggers
the growth rebuild, which collapses the duplicate slots of key 8, so after
index(7) inserts the default value, size() is still 6 instead of 7. -/
theorem C6_index_size_not_grown :
    Variant1.runSize (fun k => k) c6ops = some 6 ∧
    (Variant1.runOps (fun k => k) c6ops).map (fun m => Variant1.at_ m 7) = some none ∧
    (Variant1.runOps (fun k => k) c6ops).map
        (fun m => (Variant1.index Variant1.opFuel m 7).map
          (fun p => (p.1.sz, p.2, Variant1.findVal p.1 7)))
      = some (some (6, 0, some 0)) :=
  ⟨rfl, rfl, rfl⟩

/-- Claim C7: for every reachable state of variant 1, iterating from
begin() to end() produces exactly the live (key, value) pairs in table
order: every live pair appears with its multiplicity and no tombstoned or
empty slot is surfaced. -/
theorem C7_iteration_yields_live_pairs {K V : Type} [DecidableEq K] [Inhabited K]
    [Inhabited V] (hasher : K → Nat) (ops : List (Variant1.Op K V))
    (m : Variant1.HashMap K V) (heq : Variant1.runOps hasher ops = some m) :
    Variant1.toList m = Variant1.liveItems m :=
  Variant1.toList_eq_liveItems m (Variant1.runOps_Wf hasher ops m heq).len_arr

/-- Witness for C7_iteration_yields_live_pairs at the empty run. -/
theorem C7_iteration_yields_live_pairs_witness :
    Variant1.runOps (fun k => k) ([] : List (Variant1.Op Nat Nat))
        = some (Variant1.init fun k => k) ∧
      Variant1.toList (Variant1.init (fun k => k) : Variant1.HashMap Nat Nat)
        = Variant1.liveItems (Variant1.init fun k => k) :=
  ⟨rfl, C7_iteration_yields_live_pairs (fun k => k) [] _ rfl⟩

/-- Claim C8 (code bug): the two HashMap classes are not observationally
equivalent.  On the same operation sequence bugOps, variant 1 (whose insert
breaks at the first tombstone) reports size 2 and find(8) = 12, while
variant 2 (whose insert keeps scanning and sees the existing occupied slot)
reports size 1 and find(8) = 11. -/
theorem C8_variants_diverge :
    Variant1.runSize (fun k => k) bugOps = some 2 ∧
    (Variant2.runOps (fun k => k) bugOps2).map Variant2.size = some 1 ∧
    Variant1.runFind (fun k => k) bugOps 8 = some (some 12) ∧
    (Variant2.runOps (fun k => k) bugOps2).map (fun m => Variant2.findVal m 8)
      = some (some 11) :=
  ⟨rfl, rfl, rfl, rfl⟩

/-- Claim C9 (code bug in variant 1): copying the reachable bugOps state
(two live slots, both key 8) reinserts its enumeration into a fresh table;
the second pair is dropped as a duplicate, so the copy holds one live
entry and size 1 while the source holds two live entries and size 2: the
copy does not hold exactly the live entries of the source. -/
theorem C9_copy_loses_live_entry :
    (Variant1.runOps (fun k => k) bugOps).map
        (fun m => (m.sz, Variant1.toList m,
          (Variant1.copyCtor Variant1.opFuel m).map
            (fun c => (c.sz, Variant1.toList c, Variant1.findVal c 8))))
      = some (2, [(8, 12), (8, 11)], some (1, [(8, 12)], some 12)) :=
  rfl

/-- Claim C10: operator= short-circuits on the address identity test, so
self assignment returns the container unchanged: the resulting state is
the same, and in particular size() and every find(key) are preserved. -/
theorem C10_self_assign_noop {K V : Type} [DecidableEq K] [Inhabited K] [Inhabited V]
    (m : Variant1.HashMap K V) (key : K) :
    Variant1.opAssign Variant1.opFuel m m true = some m ∧
    (Variant1.opAssign Variant1.opFuel m m true).map Variant1.size
      = some (Variant1.size m) ∧
    (Variant1.opAssign Variant1.opFuel m m true).map (fun r => Variant1.findVal r key)
      = some (Variant1.findVal m key) :=
  ⟨rfl, rfl, rfl⟩

/-- Claim C4: inserting any sequence of pairs with pairwise distinct keys
into a fresh variant 1 table succeeds (including through every
capacity-doubling rebuild the sequence triggers), and afterwards find
yields the inserted value for every key of the sequence. -/
theorem C4_roundtrip {K V : Type} [DecidableEq K] [Inhabited K] [Inhabited V]
    (hasher : K → Nat) (pairs : List (K × V)) (hnd : (pairs.map Prod.fst).Nodup) :
    ∃ m, Variant1.runOps hasher (pairs.map fun p => Variant1.Op.insert p.1 p.2) = some m ∧
      ∀ p ∈ pairs, Variant1.findVal m p.1 = some p.2 := by
  have hginit : Variant1.Good (Variant1.init hasher : Variant1.HashMap K V) :=
    Variant1.rebuildInit_Good (Variant1.init hasher) Variant1.default_size ⟨3, rfl⟩
  obtain ⟨m1, hfold, hGood1, hpairs1, -, -⟩ :=
    Variant1.runInserts_Good pairs (Variant1.init hasher) hginit hnd
      (fun p _ => Variant1.rebuildInit_noOcc (Variant1.init hasher) Variant1.default_size p.1)
  refine ⟨m1, hfold, ?_⟩
  intro p hp
  exact Variant1.Good_findVal hGood1 (hpairs1 p hp)

/-- Witness for C4_roundtrip on seven distinct keys. -/
theorem C4_roundtrip_witness :
    (c4pairs.map Prod.fst).Nodup ∧
    ∃ m, Variant1.runOps (fun k => k) (c4pairs.map fun p => Variant1.Op.insert p.1 p.2)
        = some m ∧ ∀ p ∈ c4pairs, Variant1.findVal m p.1 = some p.2 :=
  ⟨by decide, C4_roundtrip (fun k => k) c4pairs (by decide)⟩
